import Mathlib

/-!
# Verification of the Claude Root Launcher (src/plugins/root/launcher/launcher.js)

A shallow embedding, in Lean 4, of the data model and operations of the
interactive repository launcher, together with proofs settling the frozen
claims about its specification.

Modelling conventions:
* Tree entries are modelled by the inductive type `Entry`.  JavaScript uses
  reference identity (`indexOf(targetEntry)`, `e === target`) to locate a node
  in the tree; the model gives every entry a numeric `id` standing for its
  object identity, and operations locate nodes by `id`.  Hypotheses of the
  form "the ids occurring in the tree are pairwise distinct" translate the
  JavaScript fact that distinct live objects are distinct references.
* JavaScript truthiness on string fields (`if (entry.path)`) is modelled by
  `truthy : Option String → Bool`: a field is truthy when it is present and
  not the empty string.
* Mutation is modelled by returning the updated structure; functions that in
  the source return a boolean "found/moved" flag return the pair
  `(updated value, flag)`.
* `execSync` results are supplied as oracle arguments: `Option String`, with
  `none` standing for a thrown exception (missing binary, timeout, non-zero
  exit).
-/

namespace Launcher

/-- An entry of the curated tree (`launcher.js`, entries of
`runner-config.json` after `normalizeEntry`):
`{ type, path, name, ide, expanded, children }`, plus a numeric `id`
standing for JavaScript object identity. -/
inductive Entry : Type where
  | mk : (id : Nat) → (etype : String) → (path : Option String) →
      (name : String) → (ide : Option String) → (expanded : Bool) →
      (children : List Entry) → Entry
deriving Repr

def Entry.id : Entry → Nat
  | .mk i _ _ _ _ _ _ => i

def Entry.etype : Entry → String
  | .mk _ t _ _ _ _ _ => t

def Entry.path : Entry → Option String
  | .mk _ _ p _ _ _ _ => p

def Entry.name : Entry → String
  | .mk _ _ _ n _ _ _ => n

def Entry.ide : Entry → Option String
  | .mk _ _ _ _ i _ _ => i

def Entry.expanded : Entry → Bool
  | .mk _ _ _ _ _ x _ => x

def Entry.children : Entry → List Entry
  | .mk _ _ _ _ _ _ c => c

/-- Replace the children of an entry (models in-place mutation of
`entry.children`). -/
def Entry.withChildren : Entry → List Entry → Entry
  | .mk i t p n d x _, c => .mk i t p n d x c

instance : Inhabited Entry := ⟨.mk 0 "repo" none "" none false []⟩

/-- JavaScript truthiness of an optional string field: present and not `""`
(`if (entry.path) ...`). -/
def truthy : Option String → Bool
  | none => false
  | some s => !(s == "")

/-- The characters matched by JavaScript's `\s` (whitespace class). -/
def isJsSpace (c : Char) : Bool :=
  c == ' ' || c == '\t' || c == '\n' || c == '\x0b' || c == '\x0c' ||
  c == '\r' || c == '\u00A0' || c == '\u1680' ||
  ('\u2000' ≤ c && c ≤ '\u200A') ||
  c == '\u2028' || c == '\u2029' || c == '\u202F' || c == '\u205F' ||
  c == '\u3000' || c == '\uFEFF'

/-- The characters NOT matched by JavaScript's `.` (line terminators). -/
def isLineTerm (c : Char) : Bool :=
  c == '\n' || c == '\r' || c == '\u2028' || c == '\u2029'

/-- JavaScript `String.prototype.trim()`: strip the characters of `\s`
(WhiteSpace and LineTerminator) from both ends. -/
def jsTrim (str : String) : String :=
  String.mk (((str.toList.dropWhile isJsSpace).reverse.dropWhile
    isJsSpace).reverse)

/-- `collectEntryPaths(entries)`: all truthy `path` fields of the tree, in
pre-order (launcher.js lines 317–324). -/
def collectEntryPaths : List Entry → List String
  | [] => []
  | .mk _ _ p _ _ _ c :: rest =>
      (if truthy p then [p.getD ""] else []) ++
        collectEntryPaths c ++ collectEntryPaths rest

/-- All ids of the tree with their depth, in pre-order (a bookkeeping view of
the tree used to state depth preservation; not itself a source function). -/
def flatDepth : List Entry → Nat → List (Nat × Nat)
  | [], _ => []
  | .mk i _ _ _ _ _ c :: rest, d =>
      (i, d) :: (flatDepth c (d + 1) ++ flatDepth rest d)

/-- All ids of the tree, in pre-order. -/
def flatIds (es : List Entry) : List Nat :=
  (flatDepth es 0).map Prod.fst

/-- The two reads of `[arr[idx], arr[newIdx]] = [arr[newIdx], arr[idx]]`
happen before the writes: both `set`s use the original list. -/
def swapIdx (l : List Entry) (i j : Nat) : List Entry :=
  (l.set i (l.getD j default)).set j (l.getD i default)

mutual
/-- `moveEntry(entries, targetEntry, direction, parent)` (launcher.js lines
280–297): if the target is at this level swap it with the sibling
`direction` away (no-op when that index is out of range), otherwise
recurse into children, stopping at the first subtree that reports success.
The JS `parent` argument only selects `parent.children`, which is always
the `entries` argument itself, so it is dropped. -/
def moveEntry (entries : List Entry) (tid : Nat) (dir : Int) :
    List Entry × Bool :=
  match entries.findIdx? (fun e => e.id == tid) with
  | some idx =>
      let newIdx : Int := (idx : Int) + dir
      if newIdx < 0 ∨ (entries.length : Int) ≤ newIdx then (entries, false)
      else (swapIdx entries idx newIdx.toNat, true)
  | none => moveEntryChildren entries tid dir
termination_by (sizeOf entries, 1)

/-- The `for (const entry of entries)` loop of `moveEntry`: recurse into each
entry's non-empty children list in order, stopping on success. -/
def moveEntryChildren (entries : List Entry) (tid : Nat) (dir : Int) :
    List Entry × Bool :=
  match entries with
  | [] => ([], false)
  | e :: rest =>
      if e.children.length > 0 then
        match moveEntry e.children tid dir with
        | (c', true) => (e.withChildren c' :: rest, true)
        | (_, false) =>
            let r := moveEntryChildren rest tid dir
            (e :: r.1, r.2)
      else
        let r := moveEntryChildren rest tid dir
        (e :: r.1, r.2)
termination_by (sizeOf entries, 0)
decreasing_by
  all_goals cases e
  all_goals simp_wf
  all_goals try simp_all [Entry.children]
  all_goals omega
end

mutual
/-- `removeEntry(entries, targetEntry)` (launcher.js lines 302–312): erase the
target at this level if present (`indexOf` + `splice(idx, 1)`), else recurse
into each entry's children in order, stopping at the first success. -/
def removeEntry (entries : List Entry) (tid : Nat) : List Entry × Bool :=
  match entries.findIdx? (fun e => e.id == tid) with
  | some idx => (entries.eraseIdx idx, true)
  | none => removeEntryChildren entries tid
termination_by (sizeOf entries, 1)

/-- The `for (const entry of entries)` loop of `removeEntry`. -/
def removeEntryChildren (entries : List Entry) (tid : Nat) :
    List Entry × Bool :=
  match entries with
  | [] => ([], false)
  | e :: rest =>
      match removeEntry e.children tid with
      | (c', true) => (e.withChildren c' :: rest, true)
      | (_, false) =>
          let r := removeEntryChildren rest tid
          (e :: r.1, r.2)
termination_by (sizeOf entries, 0)
decreasing_by
  all_goals cases e
  all_goals simp_wf
  all_goals try simp_all [Entry.children]
  all_goals omega
end

/-- Append `child` to the children of the (first) entry whose identity is
`pid`: models `opt.entry.children.push(entryToMove)` in the nest picker
(launcher.js lines 2079–2080), where `opt.entry` is a live reference into
the tree. -/
def pushChild (entries : List Entry) (pid : Nat) (child : Entry) :
    List Entry × Bool :=
  match entries with
  | [] => ([], false)
  | e :: rest =>
      if e.id == pid then
        (e.withChildren (e.children ++ [child]) :: rest, true)
      else
        match pushChild e.children pid child with
        | (c', true) => (e.withChildren c' :: rest, true)
        | (_, false) =>
            let r := pushChild rest pid child
            (e :: r.1, r.2)
termination_by (sizeOf entries, 0)
decreasing_by
  all_goals cases e
  all_goals simp_wf
  all_goals try simp_all [Entry.children]
  all_goals omega

/-- The nest-picker `return` action (launcher.js lines 2069–2081): detach the
held entry (`removeEntry`), then re-attach it, either pushed at root
(`(root level)` option) or pushed onto the chosen parent's children.
`ent` is the value of the entry being moved (the reference held in
`state.nestPickerEntry`). -/
def nestEntry (entries : List Entry) (ent : Entry) (target : Option Nat) :
    List Entry :=
  let es' := (removeEntry entries ent.id).1
  match target with
  | none => es' ++ [ent]
  | some pid => (pushChild es' pid ent).1

/-- Set the name of the (first) entry whose identity is `tid`: models
`state.editNameEntry.name = ...` through a live reference. -/
def setName (entries : List Entry) (tid : Nat) (newName : String) :
    List Entry × Bool :=
  match entries with
  | [] => ([], false)
  | .mk i t p n d x c :: rest =>
      if i == tid then (.mk i t p newName d x c :: rest, true)
      else
        match setName c tid newName with
        | (c', true) => (.mk i t p n d x c' :: rest, true)
        | (_, false) =>
            let r := setName rest tid newName
            (.mk i t p n d x c :: r.1, r.2)
termination_by sizeOf entries

/-- The inline rename commit (launcher.js lines 2103–2107): the trimmed
buffer is stored as the entry's name only when it is truthy (non-empty). -/
def renameEntry (entries : List Entry) (tid : Nat) (buffer : String) :
    List Entry :=
  if jsTrim buffer ≠ "" then (setName entries tid (jsTrim buffer)).1 else entries

/-- JavaScript `String.prototype.split(sep)` for a one-character separator,
on character lists: `"".split('/') = ['']`, `"a/".split('/') = ['a','']`,
etc. -/
def splitOnChar (sep : Char) : List Char → List (List Char)
  | [] => [[]]
  | c :: cs =>
      let r := splitOnChar sep cs
      if c == sep then [] :: r
      else (c :: r.headD []) :: r.tail

/-- `getPathPrefix(entryPath)` (launcher.js lines 371–375): `null` on a falsy
path; otherwise replace every backslash by `/`, split on `/`, and return
the first part when there are at least two parts, else `null`. -/
def getPathPrefix (entryPath : Option String) : Option String :=
  if truthy entryPath then
    let parts := splitOnChar '/'
      ((entryPath.getD "").toList.map fun c => if c = '\\' then '/' else c)
    if parts.length > 1 then some (String.mk (parts.headD [])) else none
  else none

/-- Modelled from the spec: the claim's phrase "first path segment" — the
first `/`-separated segment of the (backslash-normalised) path, defined for
every truthy path, single-segment paths included. -/
def specFirstSegment (entryPath : Option String) : Option String :=
  if truthy entryPath then
    some (String.mk ((splitOnChar '/'
      ((entryPath.getD "").toList.map
        fun c => if c = '\\' then '/' else c)).headD []))
  else none

/-- `findEntriesWithPrefix(entries, prefix)` (launcher.js lines 380–386):
the root-level entries with a truthy path whose `getPathPrefix` equals the
prefix. -/
def findEntriesWithPrefix (entries : List Entry) (pfx : String) :
    List Entry :=
  entries.filter fun e =>
    if truthy e.path then getPathPrefix e.path == some pfx else false

/-- `createGroupEntry(name, children)` (launcher.js lines 393–403): a group
entry whose `path` is the group name and whose `ide` is the first child's
ide when that is truthy (`children[0]?.ide || null`).  `gid` is the fresh
object identity of the new group. -/
def createGroupEntry (gid : Nat) (gname : String) (children : List Entry) :
    Entry :=
  let inheritedIde : Option String :=
    match children with
    | [] => none
    | c :: _ => if truthy c.ide then c.ide else none
  .mk gid "group" (some gname) gname inheritedIde true children

/-- The `'g'` keypress in entries-edit mode (launcher.js lines 2545–2556):
offer grouping only when the selected entry's path yields a truthy prefix
and the entry is at depth 0, and only when more than one root-level entry
matches the prefix.  Returns the confirmation payload
`(prefix, matches)`. -/
def groupOffer (entries : List Entry) (curPath : Option String)
    (curDepth : Nat) : Option (String × List Entry) :=
  match getPathPrefix curPath with
  | none => none
  | some p =>
      if p ≠ "" ∧ curDepth = 0 then
        if (findEntriesWithPrefix entries p).length > 1 then
          some (p, findEntriesWithPrefix entries p)
        else none
      else none

/-- The group-confirm `'y'` keypress (launcher.js lines 1986–2001): remove
each matched entry from the root list (`indexOf` + `splice`), then push the
new group at the end of the root list. -/
def groupConfirmYes (gid : Nat) (entries : List Entry) (pfx : String)
    (ms : List Entry) : List Entry :=
  (ms.foldl
    (fun es m =>
      match es.findIdx? (fun e => e.id == m.id) with
      | some idx => es.eraseIdx idx
      | none => es)
    entries) ++ [createGroupEntry gid pfx ms]

/-- The complete group-by-prefix interaction: the `'g'` offer followed by the
confirmed `'y'` mutation; anything short of an offer leaves the tree
unchanged. -/
def groupByPrefix (gid : Nat) (entries : List Entry) (curPath : Option String)
    (curDepth : Nat) : List Entry :=
  match groupOffer entries curPath curDepth with
  | some (p, ms) => groupConfirmYes gid entries p ms
  | none => entries

/-- A discovered repository record (`repos.json`): `{ path }`. -/
structure Repo where
  path : String
deriving Repr, DecidableEq

/-- `getManagedRepos(allRepos, unmanagedPaths)` (launcher.js lines
894–896). -/
def getManagedRepos (allRepos : List Repo) (unmanagedPaths : List String) :
    List Repo :=
  allRepos.filter fun r => !(unmanagedPaths.contains r.path)

/-- `getOtherManagedRepos(managedRepos, entries)` (launcher.js lines
901–904): managed repositories whose path is not among
`collectEntryPaths(entries)`. -/
def getOtherManagedRepos (managedRepos : List Repo) (entries : List Entry) :
    List Repo :=
  let entryPaths := collectEntryPaths entries
  managedRepos.filter fun r => !(entryPaths.contains r.path)

/-- The slice of the session state touched by the repository-visibility
manager, plus the persisted `runner-config.json` fields it can write. -/
structure MgmtState where
  unmanagedPaths : List String
  entries : List Entry
  diskUnmanagedPaths : List String
  diskEntries : List Entry
deriving Repr

/-- The `space` keypress in management mode (launcher.js lines 1887–1904):
if the selected repository's path is not yet unmanaged, append it to
`unmanagedPaths` and keep only the root-level entries whose path differs
from it (`state.entries.filter(e => e.path !== repo.path)`); otherwise
splice the path out of `unmanagedPaths`. -/
def toggleRepoManagement (st : MgmtState) (repoPath : String) : MgmtState :=
  match st.unmanagedPaths.findIdx? (fun p => p == repoPath) with
  | none =>
      { st with
        unmanagedPaths := st.unmanagedPaths ++ [repoPath]
        entries := st.entries.filter fun e => !(e.path == some repoPath) }
  | some idx =>
      { st with unmanagedPaths := st.unmanagedPaths.eraseIdx idx }

/-- The `return` keypress in management mode (launcher.js lines 1906–1913)
via `saveConfig` (lines 1822–1828): the persisted config is re-read and its
`unmanagedPaths` and `entries` fields are overwritten from the session
state. -/
def mgmtSave (st : MgmtState) : MgmtState :=
  { st with
    diskUnmanagedPaths := st.unmanagedPaths
    diskEntries := st.entries }

/-- The flatten-group action `'f'` (launcher.js lines 2612–2622): replace the
(first) entry with identity `gid` by its children, in place. -/
def ungroup (entries : List Entry) (gid : Nat) : List Entry × Bool :=
  match entries with
  | [] => ([], false)
  | e :: rest =>
      if e.id == gid then (e.children ++ rest, true)
      else
        match ungroup e.children gid with
        | (c', true) => (e.withChildren c' :: rest, true)
        | (_, false) =>
            let r := ungroup rest gid
            (e :: r.1, r.2)
termination_by sizeOf entries
decreasing_by
  all_goals cases e
  all_goals simp_wf
  all_goals try simp_all [Entry.children]
  all_goals omega

/-! ## The startup-modes editor (claim C2)

`state.claudeStartupModes` is initialised as `config.claudeStartupModes`
(launcher.js line 1723) — the *same* array object.  The editor mutates that
array in place (`push`, `splice`, element assignment, swaps).  The model
keeps a small heap of arrays addressed by index, with one reference held by
the session state and one by the loaded config object, so that aliasing is
represented faithfully. -/

/-- Heap-with-references model of the startup-modes lists: `heap` is the set
of live string-array objects, `stateRef`/`configRef` are the indices held by
`state.claudeStartupModes` and `config.claudeStartupModes`, and `disk` is
the `claudeStartupModes` field of `runner-config.json` on disk. -/
structure ModesEditor where
  heap : List (List String)
  stateRef : Nat
  configRef : Nat
  disk : List String
deriving Repr

/-- The array currently referenced by `state.claudeStartupModes`. -/
def ModesEditor.stateModes (m : ModesEditor) : List String :=
  m.heap.getD m.stateRef []

/-- The array currently referenced by `config.claudeStartupModes`. -/
def ModesEditor.configModes (m : ModesEditor) : List String :=
  m.heap.getD m.configRef []

/-- Opening the editor: `config` was loaded from disk, and
`state.claudeStartupModes = config.claudeStartupModes` (line 1723) makes the
two references alias one array. -/
def initModesEditor (modes : List String) : ModesEditor :=
  { heap := [modes], stateRef := 0, configRef := 0, disk := modes }

/-- In-place mutation of the array referenced by
`state.claudeStartupModes`. -/
def ModesEditor.mutate (m : ModesEditor) (f : List String → List String) :
    ModesEditor :=
  { m with heap := m.heap.set m.stateRef (f m.stateModes) }

/-- The `'a'` keypress (lines 2292–2298): push `'with /new-command'`. -/
def modesAdd (m : ModesEditor) : ModesEditor :=
  m.mutate fun l => l ++ ["with /new-command"]

/-- The `'x'` keypress (lines 2299–2305): splice out the selected index,
refused when only one mode remains. -/
def modesRemove (m : ModesEditor) (idx : Nat) : ModesEditor :=
  if m.stateModes.length > 1 then m.mutate (fun l => l.eraseIdx idx) else m

/-- Committing an inline rename (lines 2235–2243): store the trimmed buffer
at the selected index when it is truthy. -/
def modesRename (m : ModesEditor) (idx : Nat) (buffer : String) :
    ModesEditor :=
  if jsTrim buffer ≠ "" then m.mutate (fun l => l.set idx (jsTrim buffer)) else m

/-- The `'u'`/`'d'` keypresses (lines 2311–2329): swap the selected element
with its neighbour (in-range indices only; both reads precede the
writes). -/
def modesSwap (m : ModesEditor) (idx jdx : Nat) : ModesEditor :=
  m.mutate fun l => (l.set idx (l.getD jdx "")).set jdx (l.getD idx "")

/-- The `escape`/`'q'` keypress (lines 2282–2289):
`state.claudeStartupModes = [...config.claudeStartupModes]` — a fresh copy
of the array `config` currently references. -/
def modesEscape (m : ModesEditor) : ModesEditor :=
  { m with heap := m.heap ++ [m.configModes], stateRef := m.heap.length }

/-- The `return` keypress (lines 2269–2280):
`config.claudeStartupModes = state.claudeStartupModes` rebinds the config
reference, then `saveConfig(config)` is called — but `saveConfig` (lines
1822–1828) takes no parameter: it re-reads the config file and overwrites
only `unmanagedPaths` and `entries`, so the `claudeStartupModes` field on
disk keeps its previous value. -/
def modesEnter (m : ModesEditor) : ModesEditor :=
  { m with configRef := m.stateRef }

/-! ## Remote-status dashboard batch push (claim C3) -/

/-- A row of the remote-status dashboard
(`{ path, name, branch, ahead, behind, ... }`). -/
structure RemoteRow where
  path : String
  rname : String
  ahead : Nat
deriving Repr, DecidableEq

/-- The result of `gitPush(repoPath)` (launcher.js lines 781–794). -/
structure PushResult where
  success : Bool
  message : String
deriving Repr, DecidableEq

/-- The push loop of the `'p'` keypress (lines 2431–2441): every repository
in the list is attempted; successes increment the counter, failures append
`` `${repo.name}: ${result.message}` `` to the error list.  `push` is the
oracle for `gitPush`. -/
def pushLoop (push : String → PushResult) : List RemoteRow →
    Nat × List String
  | [] => (0, [])
  | r :: rest =>
      let res := push r.path
      let acc := pushLoop push rest
      if res.success then (acc.1 + 1, acc.2)
      else (acc.1, (r.rname ++ ": " ++ res.message) :: acc.2)

/-- The `'p'` keypress in remote-status mode (launcher.js lines 2414–2455):
filter the rows with a positive ahead-count, attempt each one, and build
the summary message. -/
def batchPush (push : String → PushResult) (rows : List RemoteRow) :
    String × Nat × List String :=
  let reposToPush := rows.filter fun r => r.ahead > 0
  if reposToPush.length = 0 then ("No repos with commits to push", 0, [])
  else
    let acc := pushLoop push reposToPush
    let msg :=
      if acc.2.length > 0 then
        "Pushed " ++ toString acc.1 ++ "/" ++ toString reposToPush.length ++
          ". Errors: " ++ toString acc.2.length
      else "Pushed " ++ toString acc.1 ++ " repos successfully"
    (msg, acc.1, acc.2)

/-! ## Local diff probe (claim C4) -/

/-- The parsed shortstat figures `{ files, added, removed }`. -/
structure GitStats where
  files : Nat
  added : Nat
  removed : Nat
deriving Repr, DecidableEq

/-- Maximal digit prefix of a character list, with the remainder. -/
def digitRun : List Char → List Char × List Char
  | [] => ([], [])
  | c :: cs =>
      if c.isDigit then
        let r := digitRun cs
        (c :: r.1, r.2)
      else ([], c :: cs)

/-- Decimal value of a digit run (the `parseInt` of a matched group). -/
def digitsToNat (ds : List Char) : Nat :=
  ds.foldl (fun n c => n * 10 + (c.toNat - 48)) 0

/-- Leftmost match of a regex of the shape `(\d+)<literal tail>`, where the
tail is one of the given literals (`files?` expands to the two literals):
scan start positions left to right, take the maximal digit run, and check
that one literal tail follows.  A shorter (backtracked) digit run can never
help because each tail starts with a non-digit. -/
def findNumPattern (s : List Char) (tails : List (List Char)) : Option Nat :=
  match s with
  | [] => none
  | _ :: rest =>
      match digitRun s with
      | (d :: ds, r) =>
          if tails.any (fun t => t.isPrefixOf r) then
            some (digitsToNat (d :: ds))
          else findNumPattern rest tails
      | ([], _) => findNumPattern rest tails

/-- `parseGitStats(output)` (launcher.js lines 640–651): extract the figures
of `"3 files changed, 15 insertions(+), 7 deletions(-)"` with the regexes
`(\d+) files? changed`, `(\d+) insertions?\(\+\)`, `(\d+) deletions?\(-\)`;
a missing group yields 0. -/
def parseGitStats (output : String) : GitStats :=
  let cs := output.toList
  { files := (findNumPattern cs
      [" files changed".toList, " file changed".toList]).getD 0
    added := (findNumPattern cs
      [" insertions(+)".toList, " insertion(+)".toList]).getD 0
    removed := (findNumPattern cs
      [" deletions(-)".toList, " deletion(-)".toList]).getD 0 }

/-- `getGitStats(repoPath)` (launcher.js lines 609–638).  `hasGitDir` is the
`fs.existsSync(path.join(fullPath, '.git'))` probe; `unstagedRun` and
`stagedRun` are the `execSync` oracles for `git diff --shortstat` and
`git diff --cached --shortstat` (`none` = the call threw: missing binary,
timeout, non-zero exit — caught by the surrounding `try`, yielding
`null`). -/
def getGitStats (hasGitDir : Bool) (unstagedRun stagedRun : Option String) :
    Option GitStats :=
  if !hasGitDir then none
  else
    match unstagedRun with
    | none => none
    | some out =>
        let result := jsTrim out
        if result = "" then
          match stagedRun with
          | none => none
          | some sout =>
              let staged := jsTrim sout
              if staged = "" then none else some (parseGitStats staged)
        else some (parseGitStats result)

/-! ## Startup-mode parsing and launch (claim C10) -/

/-- Backtracking of `\s+(.+)$` after the literal `with`: try the longest
whitespace run first (`k` characters of `\s+`), shrinking while the
remainder fails to be a non-empty line-terminator-free `(.+)$`. -/
def withBacktrack : Nat → List Char → Option (List Char)
  | 0, _ => none
  | k + 1, s =>
      let rest := s.drop (k + 1)
      if rest.length > 0 && rest.all (fun c => !isLineTerm c) then some rest
      else withBacktrack k s

/-- `parseStartupMode(mode)` (launcher.js lines 540–544): `'none'` maps to
`null`; otherwise the regex `/^with\s+(.+)$/` either captures its group or
the result is `null`. -/
def parseStartupMode (mode : String) : Option String :=
  if mode == "none" then none
  else
    if mode.toList.take 4 == ['w', 'i', 't', 'h'] then
      match withBacktrack
          ((mode.toList.drop 4).takeWhile isJsSpace).length
          (mode.toList.drop 4) with
      | some rest => some (String.mk rest)
      | none => none
    else none

/-- The Claude argument list built by `launch` (launcher.js lines 964–976):
`const command = parseStartupMode(claudeStartupMode)`,
`const claudeArgs = command ? [command] : []`.  (A truthy check: an empty
captured group cannot arise from `(.+)`, and `''` would also be dropped.) -/
def claudeArgs (claudeStartupMode : String) : List String :=
  match parseStartupMode claudeStartupMode with
  | some c => if c = "" then [] else [c]
  | none => []

/-! ## Serialisation round trip (claim C7)

`saveJson` writes `JSON.stringify(data)`; `loadJson` reads it back with
`JSON.parse` (launcher.js lines 124–141), and `loadConfig` then maps
`normalizeEntry` over the reloaded entries (lines 180–182).  Raw reloaded
entries are modelled by `EntryRaw`, whose fields are all optional (a JSON
object is schemaless); JSON trees by `JVal`.  The encoder writes absent
fields as JSON `null` — `JSON.stringify` drops `undefined`-valued fields
and keeps `null`-valued ones, and `JSON.parse` hands both back as fields
that read as falsy/nullish, which is what `none` stands for. -/

/-- A JSON value. -/
inductive JVal : Type where
  | jnull : JVal
  | jbool : Bool → JVal
  | jstr : String → JVal
  | jarr : List JVal → JVal
  | jobj : List (String × JVal) → JVal
deriving Repr

/-- A raw entry as reloaded from `runner-config.json`: every field may be
absent. -/
inductive EntryRaw : Type where
  | mk : (etype : Option String) → (path : Option String) →
      (name : Option String) → (ide : Option String) →
      (expanded : Option Bool) → (children : Option (List EntryRaw)) →
      EntryRaw
deriving Repr

mutual
/-- `normalizeEntry(entry)` (launcher.js lines 232–243): fill in
`expanded` (`?? false`) and `children` (`|| []`, recursively normalised —
`normalizeList` is the `.map(normalizeEntry)`), then give old groups
without a truthy `path` their `name` as path, when the name is truthy. -/
def normalizeEntry : EntryRaw → EntryRaw
  | .mk t p n i x c =>
      let x' : Option Bool := some (x.getD false)
      let c' : Option (List EntryRaw) := some (normalizeList (c.getD []))
      if t == some "group" && !truthy p && truthy n then
        .mk t n n i x' c'
      else .mk t p n i x' c'
termination_by e => sizeOf e
decreasing_by
  rename_i t p n i x c
  cases c
  all_goals simp_wf
  all_goals omega

/-- `normalizeEntry` mapped over a children list. -/
def normalizeList : List EntryRaw → List EntryRaw
  | [] => []
  | e :: rest => normalizeEntry e :: normalizeList rest
termination_by l => sizeOf l
end

mutual
/-- Encode one raw entry as a JSON object (`JSON.stringify`); `none` fields
are written as `null`. -/
def entryToJson : EntryRaw → JVal
  | .mk t p n i x c =>
      .jobj
        [("type", (t.map JVal.jstr).getD .jnull),
         ("path", (p.map JVal.jstr).getD .jnull),
         ("name", (n.map JVal.jstr).getD .jnull),
         ("ide", (i.map JVal.jstr).getD .jnull),
         ("expanded", (x.map JVal.jbool).getD .jnull),
         ("children",
           match c with
           | some l => .jarr (entriesToJson l)
           | none => .jnull)]
termination_by e => sizeOf e

/-- `entryToJson` mapped over a children list. -/
def entriesToJson : List EntryRaw → List JVal
  | [] => []
  | e :: rest => entryToJson e :: entriesToJson rest
termination_by l => sizeOf l
end

/-- Field accessors of a raw entry. -/
def EntryRaw.etype : EntryRaw → Option String
  | .mk t _ _ _ _ _ => t

def EntryRaw.path : EntryRaw → Option String
  | .mk _ p _ _ _ _ => p

def EntryRaw.rname : EntryRaw → Option String
  | .mk _ _ n _ _ _ => n

def EntryRaw.ide : EntryRaw → Option String
  | .mk _ _ _ i _ _ => i

def EntryRaw.expanded : EntryRaw → Option Bool
  | .mk _ _ _ _ x _ => x

def EntryRaw.children : EntryRaw → Option (List EntryRaw)
  | .mk _ _ _ _ _ c => c

/-- Read a parsed JSON value as an optional string: `null` or a non-string
value reads back as an absent (`none`) string field. -/
def jstrv : JVal → Option String
  | .jstr s => some s
  | _ => none

/-- Read a parsed JSON value as an optional boolean. -/
def jboolv : JVal → Option Bool
  | .jbool b => some b
  | _ => none

mutual
/-- Decode a parsed JSON value back into a raw entry (`JSON.parse` followed
by property reads): an object contributes each of its fields, anything else
is an entirely absent entry. -/
def entryOfJson : JVal → EntryRaw
  | .jobj fs => decodeFields fs (.mk none none none none none none)
  | _ => .mk none none none none none none
termination_by v => (sizeOf v, 1)

/-- Read a parsed JSON value as an optional children list: only an array
reads back as a present `children` field. -/
def decodeChildren : JVal → Option (List EntryRaw)
  | .jarr xs => some (entriesOfJson xs)
  | _ => none
termination_by v => (sizeOf v, 1)

/-- Fold the fields of a parsed JSON object into a raw entry, later
occurrences of a key overwriting earlier ones (JavaScript object
semantics). -/
def decodeFields : List (String × JVal) → EntryRaw → EntryRaw
  | [], acc => acc
  | (k, v) :: rest, .mk t p n i x c =>
      decodeFields rest
        (if k == "type" then .mk (jstrv v) p n i x c
         else if k == "path" then .mk t (jstrv v) n i x c
         else if k == "name" then .mk t p (jstrv v) i x c
         else if k == "ide" then .mk t p n (jstrv v) x c
         else if k == "expanded" then .mk t p n i (jboolv v) c
         else if k == "children" then .mk t p n i x (decodeChildren v)
         else .mk t p n i x c)
termination_by fs _ => (sizeOf fs, 0)

/-- `entryOfJson` mapped over an array of parsed values. -/
def entriesOfJson : List JVal → List EntryRaw
  | [] => []
  | v :: rest => entryOfJson v :: entriesOfJson rest
termination_by l => (sizeOf l, 0)
end

mutual
/-- A raw entry is normalised when `expanded` and `children` are filled, the
children are recursively normalised, and the legacy group-path fix does not
apply. -/
def isNormalized : EntryRaw → Bool
  | .mk t p n _ x c =>
      x.isSome &&
      (match c with
       | some l => allNormalized l
       | none => false) &&
      !(t == some "group" && !truthy p && truthy n)
termination_by e => sizeOf e

/-- `isNormalized` over a children list (`l.all isNormalized`). -/
def allNormalized : List EntryRaw → Bool
  | [] => true
  | e :: rest => isNormalized e && allNormalized rest
termination_by l => sizeOf l
end

/-- Serialising the `entries` field of the configuration, reloading it, and
normalising every reloaded entry (the load path of `loadConfig`). -/
def configEntriesRoundTrip (es : List EntryRaw) : List EntryRaw :=
  match JVal.jarr (es.map entryToJson) with
  | .jarr xs => (xs.map entryOfJson).map normalizeEntry
  | _ => []

/-! ## Theorems: claim C10 -/

lemma takeWhile_append_all (p : Char → Bool) (l1 l2 : List Char)
    (h1 : ∀ c ∈ l1, p c = true) (h2 : ∀ c ∈ l2.take 1, p c = false) :
    (l1 ++ l2).takeWhile p = l1 := by
  induction l1 with
  | nil =>
      simp only [List.nil_append]
      cases l2 with
      | nil => rfl
      | cons c r =>
          have : p c = false := h2 c (by simp)
          simp [List.takeWhile_cons, this]
  | cons a l1 ih =>
      have ha : p a = true := h1 a (by simp)
      simp only [List.cons_append, List.takeWhile_cons, ha]
      simp only [if_true]
      rw [ih (fun c hc => h1 c (by simp [hc]))]

lemma take_of_le_takeWhile (p : Char → Bool) (l : List Char) (j : Nat)
    (hj : j ≤ (l.takeWhile p).length) : ∀ c ∈ l.take j, p c = true := by
  induction l generalizing j with
  | nil => simp
  | cons a l ih =>
      cases j with
      | zero => simp
      | succ j =>
          by_cases ha : p a = true
          · simp only [List.takeWhile_cons, ha, if_true, List.length_cons,
              Nat.succ_le_succ_iff] at hj
            intro c hc
            simp only [List.take_succ_cons, List.mem_cons] at hc
            rcases hc with rfl | hc
            · exact ha
            · exact ih j hj c hc
          · simp only [List.takeWhile_cons, Bool.not_eq_true] at ha
            simp [ha] at hj

lemma withBacktrack_some_inv :
    ∀ (k : Nat) (tl rest : List Char), withBacktrack k tl = some rest →
      ∃ j, 1 ≤ j ∧ j ≤ k ∧ rest = tl.drop j ∧ 0 < rest.length ∧
        ∀ c ∈ rest, isLineTerm c = false := by
  intro k
  induction k with
  | zero => intro tl rest h; simp [withBacktrack] at h
  | succ k ih =>
      intro tl rest h
      unfold withBacktrack at h
      by_cases hc : ((tl.drop (k + 1)).length > 0 &&
          (tl.drop (k + 1)).all fun c => !isLineTerm c) = true
      · rw [if_pos hc] at h
        cases h
        simp only [Bool.and_eq_true, decide_eq_true_eq, List.all_eq_true,
          Bool.not_eq_true'] at hc
        refine ⟨k + 1, by omega, le_refl _, rfl, ?_, ?_⟩
        · simpa using hc.1
        · exact hc.2
      · rw [if_neg hc] at h
        obtain ⟨j, h1, h2, h3⟩ := ih tl rest h
        exact ⟨j, h1, by omega, h3⟩

/-- C10.  For every startup-mode string, the parsed assistant startup
command is exactly the regex group of `/^with\s+(.+)$/`: (i) `'none'`
parses to no command; (ii) a string `with<spaces><text>` (non-empty
whitespace, non-empty text free of line terminators, text not beginning
with further whitespace) parses to exactly `<text>`; (iii) conversely any
successfully parsed string has that shape, so every other string parses to
no command; and (iv) whenever parsing yields no command, `launch` builds
the same (empty) Claude argument list as for `'none'`. -/
theorem parseStartupMode_spec :
    parseStartupMode "none" = none ∧
    (∀ w t : String, w.toList ≠ [] → (∀ c ∈ w.toList, isJsSpace c = true) →
      t.toList ≠ [] → (∀ c ∈ t.toList, isLineTerm c = false) →
      (∀ c ∈ t.toList.take 1, isJsSpace c = false) →
      parseStartupMode ("with" ++ w ++ t) = some t) ∧
    (∀ s t : String, parseStartupMode s = some t →
      ∃ w : String, s = "with" ++ w ++ t ∧ w.toList ≠ [] ∧
        (∀ c ∈ w.toList, isJsSpace c = true) ∧ t.toList ≠ [] ∧
        ∀ c ∈ t.toList, isLineTerm c = false) ∧
    (∀ s : String, parseStartupMode s = none →
      claudeArgs s = claudeArgs "none") := by
  refine ⟨rfl, ?_, ?_, ?_⟩
  · intro w t hw hsp ht hterm hhead
    have hmode : ("with" ++ w ++ t).toList =
        'w' :: 'i' :: 't' :: 'h' :: (w.toList ++ t.toList) := by
      show ("with".toList ++ w.toList) ++ t.toList = _
      simp
    have hne : ¬ (("with" ++ w ++ t) == "none") = true := by
      intro h
      have := String.ext_iff.mp (eq_of_beq h)
      rw [show ("with" ++ w ++ t).data = ("with" ++ w ++ t).toList from rfl]
        at this
      rw [hmode] at this
      simp at this
    unfold parseStartupMode
    rw [if_neg hne, hmode]
    have htake : ('w' :: 'i' :: 't' :: 'h' :: (w.toList ++ t.toList)).take 4 =
        ['w', 'i', 't', 'h'] := rfl
    rw [if_pos (by rw [htake]; decide)]
    have hdrop : ('w' :: 'i' :: 't' :: 'h' :: (w.toList ++ t.toList)).drop 4 =
        w.toList ++ t.toList := rfl
    rw [hdrop]
    rw [takeWhile_append_all isJsSpace w.toList t.toList hsp hhead]
    obtain ⟨m, hm⟩ : ∃ m, w.toList.length = m + 1 := by
      cases hwl : w.toList with
      | nil => exact absurd hwl hw
      | cons a l => exact ⟨l.length, by simp⟩
    rw [hm]
    unfold withBacktrack
    have hdrop2 : (w.toList ++ t.toList).drop (m + 1) = t.toList := by
      rw [← hm]
      exact List.drop_left w.toList t.toList
    rw [hdrop2]
    rw [if_pos]
    · show some (String.mk t.toList) = some t
      rfl
    · simp only [Bool.and_eq_true, decide_eq_true_eq, List.all_eq_true,
        Bool.not_eq_true']
      constructor
      · cases htl : t.toList with
        | nil => exact absurd htl ht
        | cons c r => simp [htl]
      · exact fun c hc => hterm c hc
  · intro s t h
    unfold parseStartupMode at h
    by_cases h0 : (s == "none") = true
    · rw [if_pos h0] at h; cases h
    rw [if_neg h0] at h
    by_cases h4 : (s.toList.take 4 == ['w', 'i', 't', 'h']) = true
    · rw [if_pos h4] at h
      cases hbt : withBacktrack ((s.toList.drop 4).takeWhile isJsSpace).length
          (s.toList.drop 4) with
      | none => rw [hbt] at h; cases h
      | some rest =>
          rw [hbt] at h
          cases h
          obtain ⟨j, hj1, hj2, hrest, hlen, hterm⟩ :=
            withBacktrack_some_inv _ _ _ hbt
          refine ⟨String.mk ((s.toList.drop 4).take j), ?_, ?_, ?_, ?_, ?_⟩
          · apply String.ext
            show s.toList = ("with".toList ++ (s.toList.drop 4).take j) ++ rest
            rw [hrest]
            have h4' : s.toList.take 4 = ['w', 'i', 't', 'h'] := eq_of_beq h4
            conv_lhs => rw [← List.take_append_drop 4 s.toList]
            rw [h4']
            simp [List.take_append_drop]
          · show (s.toList.drop 4).take j ≠ []
            intro hnil
            have : ((s.toList.drop 4).take j).length = 0 := by rw [hnil]; rfl
            rw [List.length_take] at this
            have hlen2 : j ≤ (s.toList.drop 4).length := by
              by_contra hlt
              push_neg at hlt
              rw [hrest] at hlen
              rw [List.length_drop] at hlen
              omega
            omega
          · show ∀ c ∈ (s.toList.drop 4).take j, isJsSpace c = true
            exact take_of_le_takeWhile isJsSpace (s.toList.drop 4) j hj2
          · show rest ≠ []
            intro hnil
            rw [hnil] at hlen
            simp at hlen
          · exact hterm
    · rw [if_neg h4] at h; cases h
  · intro s h
    unfold claudeArgs
    rw [h]
    rfl

/-- Witness for C10: `'with /git:commit'` parses to `'/git:commit'`; a
successful parse decomposes as the pattern; `'IDE'` (neither `'none'` nor a
`with …` form) yields the same empty Claude argument list as `'none'`. -/
theorem parseStartupMode_spec_witness :
    parseStartupMode "with /git:commit" = some "/git:commit" ∧
    (∃ w : String, "with x" = "with" ++ w ++ "x" ∧ w.toList ≠ [] ∧
      (∀ c ∈ w.toList, isJsSpace c = true) ∧ ("x" : String).toList ≠ [] ∧
      ∀ c ∈ ("x" : String).toList, isLineTerm c = false) ∧
    claudeArgs "IDE" = claudeArgs "none" := by
  refine ⟨?_, ?_, ?_⟩
  · have h := parseStartupMode_spec.2.1 " " "/git:commit"
      (by decide) (by decide) (by decide) (by decide) (by decide)
    exact h
  · exact parseStartupMode_spec.2.2.1 "with x" "x" (by decide)
  · exact parseStartupMode_spec.2.2.2 "IDE" (by decide)

/-! ## Theorems: claim C4 -/

/-- C4.  The local-diff probe: with no `.git` directory or a failing
`git diff` invocation the result is `null`; with empty unstaged and empty
staged outputs (a clean repository) the result is `null`, never a
zero-valued statistics object; a non-empty unstaged diff supplies the
statistics; an empty unstaged diff falls back to the staged one. -/
theorem getGitStats_spec :
    (∀ u s : Option String, getGitStats false u s = none) ∧
    (∀ s : Option String, getGitStats true none s = none) ∧
    (∀ u : String, jsTrim u = "" → getGitStats true (some u) none = none) ∧
    (∀ u s : String, jsTrim u = "" → jsTrim s = "" →
      getGitStats true (some u) (some s) = none) ∧
    (∀ (u : String) (s : Option String), jsTrim u ≠ "" →
      getGitStats true (some u) s = some (parseGitStats (jsTrim u))) ∧
    (∀ u s : String, jsTrim u = "" → jsTrim s ≠ "" →
      getGitStats true (some u) (some s) = some (parseGitStats (jsTrim s))) := by
  refine ⟨fun u s => rfl, fun s => rfl, ?_, ?_, ?_, ?_⟩
  · intro u hu
    unfold getGitStats
    simp [hu]
  · intro u s hu hs
    unfold getGitStats
    simp [hu, hs]
  · intro u s hu
    unfold getGitStats
    simp [hu]
  · intro u s hu hs
    unfold getGitStats
    simp [hu, hs]

/-- Witness for C4: a clean repository (both diffs empty) probes to `null`;
a populated unstaged shortstat line parses to its three figures. -/
theorem getGitStats_spec_witness :
    getGitStats true (some "") (some "") = none ∧
    getGitStats true
      (some " 3 files changed, 15 insertions(+), 7 deletions(-)") none =
      some ⟨3, 15, 7⟩ := by
  constructor
  · exact getGitStats_spec.2.2.2.1 "" "" (by decide) (by decide)
  · have h := getGitStats_spec.2.2.2.2.1
      " 3 files changed, 15 insertions(+), 7 deletions(-)" none (by decide)
    rw [h]
    decide

/-! ## Theorems: claim C3 -/

lemma pushLoop_spec (push : String → PushResult) (l : List RemoteRow) :
    (pushLoop push l).1 =
      (l.filter fun r => (push r.path).success).length ∧
    (pushLoop push l).2 =
      (l.filter fun r => !(push r.path).success).map
        (fun r => r.rname ++ ": " ++ (push r.path).message) := by
  induction l with
  | nil => exact ⟨rfl, rfl⟩
  | cons r rest ih =>
      by_cases h : (push r.path).success = true
      · simp [pushLoop, h, List.filter_cons, ih.1, ih.2]
      · rw [Bool.not_eq_true] at h
        simp [pushLoop, h, List.filter_cons, ih.1, ih.2]

lemma length_filter_add_length_filter_not {α : Type} (p : α → Bool)
    (l : List α) :
    (l.filter p).length + (l.filter fun a => !p a).length = l.length := by
  induction l with
  | nil => rfl
  | cons a rest ih =>
      by_cases h : p a = true
      · simp [List.filter_cons, h, ← ih]
        omega
      · rw [Bool.not_eq_true] at h
        simp [List.filter_cons, h, ← ih]
        omega

/-- C3.  A batch push attempts every dashboard row with a positive
ahead-count — successes and failures together exhaust the filtered batch,
whatever the push outcomes — and reports the success count and one error
line per failed repository; for a batch of three where exactly the second
fails, the summary message is `Pushed 2/3. Errors: 1` with exactly one
error line. -/
theorem batchPush_spec :
    (∀ (push : String → PushResult) (rows : List RemoteRow),
      (batchPush push rows).2.1 +
          ((batchPush push rows).2.2).length =
        (rows.filter fun r => r.ahead > 0).length ∧
      (batchPush push rows).2.1 =
        ((rows.filter fun r => r.ahead > 0).filter
          fun r => (push r.path).success).length ∧
      (batchPush push rows).2.2 =
        ((rows.filter fun r => r.ahead > 0).filter
          fun r => !(push r.path).success).map
            (fun r => r.rname ++ ": " ++ (push r.path).message)) ∧
    (∀ (push : String → PushResult) (r1 r2 r3 : RemoteRow),
      r1.ahead > 0 → r2.ahead > 0 → r3.ahead > 0 →
      (push r1.path).success = true → (push r2.path).success = false →
      (push r3.path).success = true →
      (batchPush push [r1, r2, r3]).1 = "Pushed 2/3. Errors: 1" ∧
      (batchPush push [r1, r2, r3]).2.2 =
        [r2.rname ++ ": " ++ (push r2.path).message]) := by
  constructor
  · intro push rows
    unfold batchPush
    by_cases h : (rows.filter fun r => r.ahead > 0).length = 0
    · rw [List.length_eq_zero] at h
      simp [h]
    · simp only [h, if_false]
      refine ⟨?_, (pushLoop_spec push _).1, (pushLoop_spec push _).2⟩
      rw [(pushLoop_spec push _).1, (pushLoop_spec push _).2,
        List.length_map]
      exact length_filter_add_length_filter_not _ _
  · intro push r1 r2 r3 h1 h2 h3 hs1 hs2 hs3
    have hfilter : ([r1, r2, r3].filter fun r => r.ahead > 0) =
        [r1, r2, r3] := by
      simp [List.filter_cons, h1, h2, h3]
    unfold batchPush
    rw [hfilter]
    simp only [List.length_cons, List.length_nil]
    rw [if_neg (by omega)]
    have hloop : pushLoop push [r1, r2, r3] =
        (2, [r2.rname ++ ": " ++ (push r2.path).message]) := by
      simp [pushLoop, hs1, hs2, hs3]
    rw [hloop]
    refine ⟨?_, rfl⟩
    simp only [List.length_cons, List.length_nil]
    rw [if_pos (by omega)]
    rfl

/-- Witness for C3: a concrete batch of three repositories in which the
push oracle fails exactly on the second one. -/
theorem batchPush_spec_witness :
    (batchPush
      (fun p => if p = "b" then ⟨false, "remote rejected"⟩
                else ⟨true, "Pushed successfully"⟩)
      [⟨"a", "A", 1⟩, ⟨"b", "B", 2⟩, ⟨"c", "C", 3⟩]).1 =
      "Pushed 2/3. Errors: 1" ∧
    (batchPush
      (fun p => if p = "b" then ⟨false, "remote rejected"⟩
                else ⟨true, "Pushed successfully"⟩)
      [⟨"a", "A", 1⟩, ⟨"b", "B", 2⟩, ⟨"c", "C", 3⟩]).2.2 =
      ["B: remote rejected"] := by
  have h := batchPush_spec.2
    (fun p => if p = "b" then ⟨false, "remote rejected"⟩
              else ⟨true, "Pushed successfully"⟩)
    ⟨"a", "A", 1⟩ ⟨"b", "B", 2⟩ ⟨"c", "C", 3⟩
    (by decide) (by decide) (by decide) (by decide) (by decide) (by decide)
  exact h

/-! ## Theorems: claim C9 -/

/-- C9.  A managed repository is listed as "other managed" iff its path
differs from every collected entry path — and group entries contribute
their synthetic path (the group name) to that collection.  Consequently a
managed repository whose path coincides with a group's path is omitted even
though no repository entry references it: in the concrete configuration
below, the tree contains only a group with path `g` and a repo entry
`g/x`, yet managed repository `g` is not in the "other managed" list. -/
theorem getOtherManagedRepos_spec :
    (∀ (managed : List Repo) (es : List Entry) (r : Repo),
      r ∈ getOtherManagedRepos managed es ↔
        r ∈ managed ∧ ¬ r.path ∈ collectEntryPaths es) ∧
    (getOtherManagedRepos [⟨"g"⟩, ⟨"other"⟩]
        [Entry.mk 1 "group" (some "g") "g" none true
          [Entry.mk 2 "repo" (some "g/x") "g/x" none false []]] =
      [⟨"other"⟩] ∧
    (Entry.mk 1 "group" (some "g") "g" none true
        [Entry.mk 2 "repo" (some "g/x") "g/x" none false []]).etype ≠
      "repo") := by
  refine ⟨?_, ?_, by decide⟩
  · intro managed es r
    unfold getOtherManagedRepos
    rw [List.mem_filter]
    simp [List.contains]
  · have h : collectEntryPaths
        [Entry.mk 1 "group" (some "g") "g" none true
          [Entry.mk 2 "repo" (some "g/x") "g/x" none false []]] =
        ["g", "g/x"] := by
      simp [collectEntryPaths, truthy]
    simp only [getOtherManagedRepos]
    rw [h]
    decide

/-! ## Theorems: claim C2 -/

/-- C2 (code bug).  The startup-modes editor neither persists on Enter nor
discards on Escape.  Concretely, starting from the persisted mode list
`['none', 'with /git:startup', 'with /git:commit']`: after removing the
first mode with `'x'`, (i) pressing Escape leaves the in-memory list
shortened — the removal survives the "discard", because
`state.claudeStartupModes` and `config.claudeStartupModes` alias one array
(line 1723), so `[...config.claudeStartupModes]` copies the already-mutated
array; and (ii) pressing Enter leaves the `claudeStartupModes` field of
`runner-config.json` untouched — `saveConfig(config)` ignores its argument
and writes only `unmanagedPaths` and `entries`. -/
theorem startupModesEditor_bug :
    ((modesEscape (modesRemove
        (initModesEditor
          ["none", "with /git:startup", "with /git:commit"]) 0)).stateModes =
      ["with /git:startup", "with /git:commit"] ∧
     (modesEscape (modesRemove
        (initModesEditor
          ["none", "with /git:startup", "with /git:commit"]) 0)).stateModes ≠
      (initModesEditor
        ["none", "with /git:startup", "with /git:commit"]).disk) ∧
    ((modesEnter (modesRemove
        (initModesEditor
          ["none", "with /git:startup", "with /git:commit"]) 0)).disk =
      ["none", "with /git:startup", "with /git:commit"] ∧
     (modesEnter (modesRemove
        (initModesEditor
          ["none", "with /git:startup", "with /git:commit"]) 0)).stateModes ≠
      (modesEnter (modesRemove
        (initModesEditor
          ["none", "with /git:startup", "with /git:commit"]) 0)).disk) := by
  decide

/-! ## Theorems: claim C1 -/

/-- Counterexample to C1 as stated: a repository entry nested inside a
group is NOT removed when its repository is toggled to unmanaged — the
filter `state.entries.filter(e => e.path !== repo.path)` inspects only the
root level.  After toggling `a/r`, the path `a/r` is in the unmanaged set
yet still collected from the tree, and persisting keeps it in the persisted
tree too. -/
theorem toggleUnmanaged_nested_counterexample :
    (toggleRepoManagement
        ⟨[], [Entry.mk 1 "group" (some "grp") "grp" none true
          [Entry.mk 2 "repo" (some "a/r") "a/r" none false []]], [], []⟩
        "a/r").unmanagedPaths = ["a/r"] ∧
    "a/r" ∈ collectEntryPaths (toggleRepoManagement
        ⟨[], [Entry.mk 1 "group" (some "grp") "grp" none true
          [Entry.mk 2 "repo" (some "a/r") "a/r" none false []]], [], []⟩
        "a/r").entries ∧
    "a/r" ∈ collectEntryPaths (mgmtSave (toggleRepoManagement
        ⟨[], [Entry.mk 1 "group" (some "grp") "grp" none true
          [Entry.mk 2 "repo" (some "a/r") "a/r" none false []]], [], []⟩
        "a/r")).diskEntries := by
  have h1 : (toggleRepoManagement
      ⟨[], [Entry.mk 1 "group" (some "grp") "grp" none true
        [Entry.mk 2 "repo" (some "a/r") "a/r" none false []]], [], []⟩
      "a/r") =
      ⟨["a/r"], [Entry.mk 1 "group" (some "grp") "grp" none true
        [Entry.mk 2 "repo" (some "a/r") "a/r" none false []]], [], []⟩ := by
    simp [toggleRepoManagement, List.findIdx?, Entry.path]
  rw [h1]
  refine ⟨rfl, ?_, ?_⟩
  · simp [collectEntryPaths, truthy, mgmtSave]
  · simp [collectEntryPaths, truthy, mgmtSave]

/-- C1 as amended.  Toggling a managed repository to unmanaged appends its
path to the unmanaged set and removes, in the same edit session, every
*root-level* tree entry whose path is that repository's path (entries
nested inside groups are not touched); pressing Enter then persists both
the unmanaged set and the pruned tree. -/
theorem toggleUnmanaged_spec (st : MgmtState) (p : String)
    (h : ¬ p ∈ st.unmanagedPaths) :
    (toggleRepoManagement st p).unmanagedPaths =
      st.unmanagedPaths ++ [p] ∧
    (toggleRepoManagement st p).entries =
      st.entries.filter (fun e => !(e.path == some p)) ∧
    (∀ e ∈ (toggleRepoManagement st p).entries, e.path ≠ some p) ∧
    (mgmtSave (toggleRepoManagement st p)).diskUnmanagedPaths =
      st.unmanagedPaths ++ [p] ∧
    (mgmtSave (toggleRepoManagement st p)).diskEntries =
      st.entries.filter (fun e => !(e.path == some p)) := by
  have hfind : st.unmanagedPaths.findIdx? (fun q => q == p) = none := by
    rw [List.findIdx?_eq_none_iff]
    intro q hq
    simp only [beq_eq_false_iff_ne, ne_eq]
    intro rfl'
    exact h (rfl' ▸ hq)
  have ht : toggleRepoManagement st p =
      { st with
        unmanagedPaths := st.unmanagedPaths ++ [p]
        entries := st.entries.filter fun e => !(e.path == some p) } := by
    unfold toggleRepoManagement
    rw [hfind]
  rw [ht]
  refine ⟨rfl, rfl, ?_, rfl, rfl⟩
  intro e he
  have := (List.mem_filter.mp he).2
  simpa using this

/-- Witness for the amended C1: toggling `a` removes the root entry with
path `a` and keeps `b`; saving persists both projections. -/
theorem toggleUnmanaged_spec_witness :
    ¬ ("a" : String) ∈ ([] : List String) ∧
    (toggleRepoManagement
        ⟨[], [Entry.mk 1 "repo" (some "a") "a" none false [],
              Entry.mk 2 "repo" (some "b") "b" none false []], [], []⟩
        "a").unmanagedPaths = ["a"] ∧
    (toggleRepoManagement
        ⟨[], [Entry.mk 1 "repo" (some "a") "a" none false [],
              Entry.mk 2 "repo" (some "b") "b" none false []], [], []⟩
        "a").entries = [Entry.mk 2 "repo" (some "b") "b" none false []] := by
  have h := toggleUnmanaged_spec
    ⟨[], [Entry.mk 1 "repo" (some "a") "a" none false [],
          Entry.mk 2 "repo" (some "b") "b" none false []], [], []⟩
    "a" (by decide)
  refine ⟨by decide, ?_, ?_⟩
  · exact h.1
  · rw [h.2.1]
    rfl

/-! ## Theorems: claim C7 -/

lemma jstrv_encode (t : Option String) :
    jstrv ((t.map JVal.jstr).getD .jnull) = t := by
  cases t <;> rfl

lemma jboolv_encode (x : Option Bool) :
    jboolv ((x.map JVal.jbool).getD .jnull) = x := by
  cases x <;> rfl

mutual
theorem ofJson_toJson (e : EntryRaw) : entryOfJson (entryToJson e) = e := by
  match e with
  | .mk t p n i x c =>
      have k1 : (("path" : String) == "type") = false := by decide
      have k2 : (("name" : String) == "type") = false := by decide
      have k3 : (("name" : String) == "path") = false := by decide
      have k4 : (("ide" : String) == "type") = false := by decide
      have k5 : (("ide" : String) == "path") = false := by decide
      have k6 : (("ide" : String) == "name") = false := by decide
      have k7 : (("expanded" : String) == "type") = false := by decide
      have k8 : (("expanded" : String) == "path") = false := by decide
      have k9 : (("expanded" : String) == "name") = false := by decide
      have k10 : (("expanded" : String) == "ide") = false := by decide
      have k11 : (("children" : String) == "type") = false := by decide
      have k12 : (("children" : String) == "path") = false := by decide
      have k13 : (("children" : String) == "name") = false := by decide
      have k14 : (("children" : String) == "ide") = false := by decide
      have k15 : (("children" : String) == "expanded") = false := by decide
      cases c with
      | none =>
          simp [entryToJson, entryOfJson, decodeFields, decodeChildren,
            k1, k2, k3, k4, k5, k6, k7, k8, k9, k10,
            k11, k12, k13, k14, k15, jstrv_encode, jboolv_encode]
      | some l =>
          simp [entryToJson, entryOfJson, decodeFields, decodeChildren,
            k1, k2, k3, k4, k5, k6, k7, k8, k9, k10,
            k11, k12, k13, k14, k15, jstrv_encode, jboolv_encode]
          rw [ofJson_toJson_list l]
termination_by (sizeOf e, 1)

theorem ofJson_toJson_list (l : List EntryRaw) :
    entriesOfJson (entriesToJson l) = l := by
  match l with
  | [] => rw [entriesToJson, entriesOfJson]
  | e :: rest =>
      rw [entriesToJson, entriesOfJson]
      rw [ofJson_toJson e, ofJson_toJson_list rest]
termination_by (sizeOf l, 0)
end

mutual
theorem normalizeEntry_of_isNormalized (e : EntryRaw)
    (h : isNormalized e = true) : normalizeEntry e = e := by
  match e with
  | .mk t p n i x c =>
      rw [isNormalized.eq_def] at h
      simp only [Bool.and_eq_true, Bool.not_eq_true'] at h
      obtain ⟨⟨hx, hc⟩, hfix⟩ := h
      obtain ⟨b, rfl⟩ : ∃ b, x = some b := Option.isSome_iff_exists.mp hx
      cases c with
      | none => exact absurd hc (by decide)
      | some l =>
          have hl : allNormalized l = true := hc
          simp only [normalizeEntry, Option.getD_some, hfix,
            Bool.false_eq_true, if_false]
          rw [normalizeList_of_allNormalized l hl]

termination_by (sizeOf e, 1)

theorem normalizeList_of_allNormalized (l : List EntryRaw)
    (h : allNormalized l = true) : normalizeList l = l := by
  match l with
  | [] => rw [normalizeList]
  | e :: rest =>
      rw [allNormalized] at h
      simp only [Bool.and_eq_true] at h
      rw [normalizeList]
      rw [normalizeEntry_of_isNormalized e h.1,
        normalizeList_of_allNormalized rest h.2]
termination_by (sizeOf l, 0)
end

mutual
theorem isNormalized_normalizeEntry (e : EntryRaw) :
    isNormalized (normalizeEntry e) = true := by
  match e with
  | .mk t p n i x c =>
      by_cases hfix : (t == some "group" && !truthy p && truthy n) = true
      · have htn : truthy n = true := by
          simp only [Bool.and_eq_true] at hfix
          exact hfix.2
        simp only [normalizeEntry, hfix, if_true]
        rw [isNormalized.eq_def]
        simp only [Option.isSome_some, Bool.true_and]
        rw [allNormalized_normalizeList (c.getD [])]
        simp [htn]
      · rw [Bool.not_eq_true] at hfix
        simp only [normalizeEntry, hfix, Bool.false_eq_true, if_false]
        rw [isNormalized.eq_def]
        simp only [Option.isSome_some, Bool.true_and]
        rw [allNormalized_normalizeList (c.getD [])]
        simp only [Bool.true_and, Bool.not_eq_true']
        exact hfix
termination_by (sizeOf e, 1)
decreasing_by
  all_goals simp_wf
  all_goals cases c
  all_goals simp
  all_goals omega

theorem allNormalized_normalizeList (l : List EntryRaw) :
    allNormalized (normalizeList l) = true := by
  match l with
  | [] => rw [normalizeList]; rw [allNormalized]
  | e :: rest =>
      rw [normalizeList, allNormalized]
      rw [isNormalized_normalizeEntry e, allNormalized_normalizeList rest]
      rfl
termination_by (sizeOf l, 0)
end

lemma map_ofJson_toJson (es : List EntryRaw) :
    (es.map entryToJson).map entryOfJson = es := by
  induction es with
  | nil => rfl
  | cons a r ih => simp only [List.map_cons, ofJson_toJson a, ih]

lemma map_normalize_of_allNormalized (es : List EntryRaw)
    (h : allNormalized es = true) : es.map normalizeEntry = es := by
  induction es with
  | nil => rfl
  | cons a r ih =>
      rw [allNormalized] at h
      simp only [Bool.and_eq_true] at h
      simp only [List.map_cons, normalizeEntry_of_isNormalized a h.1,
        ih h.2]

/-- C7.  Serialising a configuration's entry tree to JSON, reloading it, and
normalising every entry reproduces the tree exactly — the same paths, the
same nesting, the same sibling order — for every normalised tree; and every
entry tree the launcher holds is normalised, because `loadConfig` maps
`normalizeEntry` over whatever it loads (second conjunct). -/
theorem configEntriesRoundTrip_spec :
    (∀ es : List EntryRaw, allNormalized es = true →
      configEntriesRoundTrip es = es) ∧
    (∀ l : List EntryRaw, allNormalized (normalizeList l) = true) := by
  constructor
  · intro es h
    show ((es.map entryToJson).map entryOfJson).map normalizeEntry = es
    rw [map_ofJson_toJson es]
    exact map_normalize_of_allNormalized es h
  · exact allNormalized_normalizeList

/-- Witness for C7: a concrete two-level normalised tree survives the
serialise–reload–normalise round trip unchanged. -/
theorem configEntriesRoundTrip_spec_witness :
    allNormalized
      [EntryRaw.mk (some "group") (some "org") (some "org") none
        (some true) (some [EntryRaw.mk (some "repo") (some "org/a")
          (some "org/a") (some "WebStorm") (some false) (some [])]),
       EntryRaw.mk (some "repo") (some "b") (some "b") none (some false)
        (some [])] = true ∧
    configEntriesRoundTrip
      [EntryRaw.mk (some "group") (some "org") (some "org") none
        (some true) (some [EntryRaw.mk (some "repo") (some "org/a")
          (some "org/a") (some "WebStorm") (some false) (some [])]),
       EntryRaw.mk (some "repo") (some "b") (some "b") none (some false)
        (some [])] =
      [EntryRaw.mk (some "group") (some "org") (some "org") none
        (some true) (some [EntryRaw.mk (some "repo") (some "org/a")
          (some "org/a") (some "WebStorm") (some false) (some [])]),
       EntryRaw.mk (some "repo") (some "b") (some "b") none (some false)
        (some [])] := by
  have hn : allNormalized
      [EntryRaw.mk (some "group") (some "org") (some "org") none
        (some true) (some [EntryRaw.mk (some "repo") (some "org/a")
          (some "org/a") (some "WebStorm") (some false) (some [])]),
       EntryRaw.mk (some "repo") (some "b") (some "b") none (some false)
        (some [])] = true := by
    simp [allNormalized, isNormalized, truthy]
  exact ⟨hn, configEntriesRoundTrip_spec.1 _ hn⟩

/-! ## Theorems: claim C5 -/

@[simp] lemma Entry.id_withChildren (e : Entry) (c : List Entry) :
    (e.withChildren c).id = e.id := by
  cases e; rfl

@[simp] lemma Entry.children_withChildren (e : Entry) (c : List Entry) :
    (e.withChildren c).children = c := by
  cases e; rfl

lemma flatDepth_nil (d : Nat) : flatDepth [] d = [] := by
  rw [flatDepth]

lemma flatDepth_cons (e : Entry) (rest : List Entry) (d : Nat) :
    flatDepth (e :: rest) d =
      (e.id, d) :: (flatDepth e.children (d + 1) ++ flatDepth rest d) := by
  cases e
  rw [flatDepth]
  rfl

lemma flatDepth_eq_flatten (es : List Entry) (d : Nat) :
    flatDepth es d =
      (es.map fun e => (e.id, d) :: flatDepth e.children (d + 1)).flatten := by
  induction es with
  | nil => rw [flatDepth_nil]; rfl
  | cons e rest ih =>
      rw [flatDepth_cons, ih]
      simp

lemma flatDepth_perm_of_perm {l1 l2 : List Entry} (h : l1.Perm l2) (d : Nat) :
    (flatDepth l1 d).Perm (flatDepth l2 d) := by
  rw [flatDepth_eq_flatten, flatDepth_eq_flatten]
  exact (h.map _).flatten

lemma head_swap_perm {α : Type} (d' : α) :
    ∀ (xs : List α) (m : Nat) (x : α), m < xs.length →
      (xs.getD m d' :: xs.set m x).Perm (x :: xs) := by
  intro xs
  induction xs with
  | nil => intro m x h; simp at h
  | cons y ys ih =>
      intro m x h
      cases m with
      | zero => simpa using List.Perm.swap x y ys
      | succ m =>
          simp only [List.getD_cons_succ, List.set_cons_succ]
          exact (List.Perm.swap y (ys.getD m d') (ys.set m x)).trans
            (((ih m x (by simpa using h)).cons y).trans
              (List.Perm.swap x y ys))

lemma set_set_perm {α : Type} (d' : α) :
    ∀ (l : List α) (i j : Nat), i < l.length → j < l.length →
      ((l.set i (l.getD j d')).set j (l.getD i d')).Perm l := by
  intro l
  induction l with
  | nil => intro i j hi _; simp at hi
  | cons x xs ih =>
      intro i j hi hj
      cases i with
      | zero =>
          cases j with
          | zero => simp
          | succ m =>
              simp only [List.getD_cons_zero, List.getD_cons_succ,
                List.set_cons_zero, List.set_cons_succ]
              exact head_swap_perm d' xs m x (by simpa using hj)
      | succ n =>
          cases j with
          | zero =>
              simp only [List.getD_cons_zero, List.getD_cons_succ,
                List.set_cons_zero, List.set_cons_succ]
              exact head_swap_perm d' xs n x (by simpa using hi)
          | succ m =>
              simp only [List.getD_cons_succ, List.set_cons_succ]
              exact (ih n m (by simpa using hi) (by simpa using hj)).cons x

lemma swapIdx_perm (es : List Entry) (i j : Nat) (hi : i < es.length)
    (hj : j < es.length) : (swapIdx es i j).Perm es :=
  set_set_perm default es i j hi hj

mutual
theorem moveEntry_flatDepth_perm (es : List Entry) (tid : Nat) (dir : Int)
    (d : Nat) :
    (flatDepth (moveEntry es tid dir).1 d).Perm (flatDepth es d) := by
  rw [moveEntry.eq_def]
  cases hf : es.findIdx? (fun e => e.id == tid) with
  | some idx =>
      simp only []
      by_cases hb : ((idx : Int) + dir < 0 ∨
          (es.length : Int) ≤ (idx : Int) + dir)
      · rw [if_pos hb]
      · rw [if_neg hb]
        push_neg at hb
        obtain ⟨hlen, -, -⟩ := List.findIdx?_eq_some_iff_getElem.mp hf
        have hj : ((idx : Int) + dir).toNat < es.length := by omega
        exact flatDepth_perm_of_perm (swapIdx_perm es idx _ hlen hj) d
  | none => exact moveEntryChildren_flatDepth_perm es tid dir d
termination_by (sizeOf es, 1)

theorem moveEntryChildren_flatDepth_perm (es : List Entry) (tid : Nat)
    (dir : Int) (d : Nat) :
    (flatDepth (moveEntryChildren es tid dir).1 d).Perm (flatDepth es d) := by
  match es with
  | [] => rw [moveEntryChildren]
  | e :: rest =>
      rw [moveEntryChildren.eq_def]
      simp only []
      by_cases hc : e.children.length > 0
      · rw [if_pos hc]
        cases hm : moveEntry e.children tid dir with
        | mk c' moved =>
            cases moved with
            | true =>
                have ihc := moveEntry_flatDepth_perm e.children tid dir (d + 1)
                rw [hm] at ihc
                rw [flatDepth_cons, flatDepth_cons]
                simp only [Entry.id_withChildren, Entry.children_withChildren]
                exact ((ihc.append (List.Perm.refl _)).cons _)
            | false =>
                have ihr := moveEntryChildren_flatDepth_perm rest tid dir d
                rw [flatDepth_cons, flatDepth_cons]
                exact (((List.Perm.refl _).append ihr).cons _)
      · rw [if_neg hc]
        have ihr := moveEntryChildren_flatDepth_perm rest tid dir d
        rw [flatDepth_cons, flatDepth_cons]
        exact (((List.Perm.refl _).append ihr).cons _)
termination_by (sizeOf es, 0)
decreasing_by
  all_goals cases e
  all_goals simp_wf
  all_goals try simp_all [Entry.children]
  all_goals omega
end

lemma findIdx?_middle (l1 : List Entry) (a : Entry) (l2 : List Entry)
    (p : Entry → Bool) (h1 : ∀ e ∈ l1, p e = false) (ha : p a = true) :
    (l1 ++ a :: l2).findIdx? p = some l1.length := by
  rw [List.findIdx?_append, List.findIdx?_eq_none_iff.mpr h1]
  simp [List.findIdx?_cons, ha]

lemma set_set_adjacent (l1 : List Entry) (a b : Entry) (l2 : List Entry) :
    swapIdx (l1 ++ a :: b :: l2) l1.length (l1.length + 1) =
      l1 ++ b :: a :: l2 := by
  unfold swapIdx
  induction l1 with
  | nil => simp
  | cons x l1 ih =>
      simp only [List.cons_append, List.length_cons, List.getD_cons_succ,
        List.set_cons_succ]
      rw [ih]

lemma set_set_adjacent' (l1 : List Entry) (a b : Entry) (l2 : List Entry) :
    swapIdx (l1 ++ a :: b :: l2) (l1.length + 1) l1.length =
      l1 ++ b :: a :: l2 := by
  unfold swapIdx
  induction l1 with
  | nil => simp
  | cons x l1 ih =>
      simp only [List.cons_append, List.length_cons, List.getD_cons_succ,
        List.set_cons_succ]
      rw [ih]

/-- C5.  `moveEntry`: (i) moving an entry down swaps it with its immediate
next sibling within the same sibling sequence; (ii) moving up swaps it with
its immediate previous sibling; (iii) moving the first sibling up is a
no-op, as is (iv) moving the last sibling down; and (v) for the up/down
directions the flattened (id, depth) multiset of the whole tree is
preserved — no entry's depth ever changes.  The sibling sequence is
quantified as an arbitrary list, which is exactly how `moveEntry` recurses
into every parent's `children`. -/
theorem moveEntry_spec :
    (∀ (l1 : List Entry) (a b : Entry) (l2 : List Entry) (tid : Nat),
      (∀ e ∈ l1, (e.id == tid) = false) → a.id = tid →
      moveEntry (l1 ++ a :: b :: l2) tid 1 = (l1 ++ b :: a :: l2, true)) ∧
    (∀ (l1 : List Entry) (a b : Entry) (l2 : List Entry) (tid : Nat),
      (∀ e ∈ l1, (e.id == tid) = false) → (a.id == tid) = false →
      b.id = tid →
      moveEntry (l1 ++ a :: b :: l2) tid (-1) =
        (l1 ++ b :: a :: l2, true)) ∧
    (∀ (a : Entry) (l : List Entry) (tid : Nat), a.id = tid →
      moveEntry (a :: l) tid (-1) = (a :: l, false)) ∧
    (∀ (l : List Entry) (a : Entry) (tid : Nat),
      (∀ e ∈ l, (e.id == tid) = false) → a.id = tid →
      moveEntry (l ++ [a]) tid 1 = (l ++ [a], false)) ∧
    (∀ (es : List Entry) (tid : Nat) (dir : Int) (d : Nat),
      (flatDepth (moveEntry es tid dir).1 d).Perm (flatDepth es d)) := by
  refine ⟨?_, ?_, ?_, ?_, moveEntry_flatDepth_perm⟩
  · intro l1 a b l2 tid h1 ha
    rw [moveEntry.eq_def]
    rw [findIdx?_middle l1 a (b :: l2) _ h1 (by simp [ha])]
    simp only []
    rw [if_neg (by
      push_neg
      constructor
      · omega
      · try simp only [List.length_append, List.length_cons]
        push_cast
        omega)]
    have ht : (((l1.length : Int)) + 1).toNat = l1.length + 1 := by omega
    rw [ht, set_set_adjacent]
  · intro l1 a b l2 tid h1 hna hb
    have hdecomp : l1 ++ a :: b :: l2 = (l1 ++ [a]) ++ b :: l2 := by simp
    rw [moveEntry.eq_def, hdecomp]
    rw [findIdx?_middle (l1 ++ [a]) b l2 _
      (by
        intro e he
        rcases List.mem_append.mp he with h | h
        · exact h1 e h
        · simp only [List.mem_singleton] at h
          subst h
          exact hna)
      (by simp [hb])]
    simp only [List.length_append, List.length_cons, List.length_nil]
    rw [if_neg (by
      push_neg
      constructor
      · omega
      · try simp only [List.length_append, List.length_cons]
        push_cast
        omega)]
    have ht : (((l1.length + 1 : Nat) : Int) + (-1)).toNat = l1.length := by
      omega
    rw [ht]
    have := set_set_adjacent' l1 a b l2
    rw [← hdecomp]
    rw [show l1.length + 0 + 1 = l1.length + 1 from by omega]
    rw [this]
  · intro a l tid ha
    rw [moveEntry.eq_def]
    rw [show (a :: l).findIdx? (fun e => e.id == tid) = some 0 from by
      simp [List.findIdx?_cons, ha]]
    simp only []
    rw [if_pos (by left; omega)]
  · intro l a tid h1 ha
    rw [moveEntry.eq_def]
    rw [findIdx?_middle l a [] _ h1 (by simp [ha])]
    simp only []
    rw [if_pos (by
      right
      simp only [List.length_append, List.length_cons, List.length_nil]
      push_cast
      omega)]

/-- Witness for C5: in the sibling list `[a, b]`, moving `a` down swaps to
`[b, a]`; moving `a` up and moving `b` down are no-ops; and the move
preserves the flattened (id, depth) multiset. -/
theorem moveEntry_spec_witness :
    moveEntry [Entry.mk 1 "repo" (some "a") "a" none false [],
               Entry.mk 2 "repo" (some "b") "b" none false []] 1 1 =
      ([Entry.mk 2 "repo" (some "b") "b" none false [],
        Entry.mk 1 "repo" (some "a") "a" none false []], true) ∧
    moveEntry [Entry.mk 1 "repo" (some "a") "a" none false [],
               Entry.mk 2 "repo" (some "b") "b" none false []] 1 (-1) =
      ([Entry.mk 1 "repo" (some "a") "a" none false [],
        Entry.mk 2 "repo" (some "b") "b" none false []], false) ∧
    moveEntry [Entry.mk 1 "repo" (some "a") "a" none false [],
               Entry.mk 2 "repo" (some "b") "b" none false []] 2 1 =
      ([Entry.mk 1 "repo" (some "a") "a" none false [],
        Entry.mk 2 "repo" (some "b") "b" none false []], false) := by
  refine ⟨?_, ?_, ?_⟩
  · have h := moveEntry_spec.1 []
      (Entry.mk 1 "repo" (some "a") "a" none false [])
      (Entry.mk 2 "repo" (some "b") "b" none false []) [] 1
      (by simp) (by rfl)
    simpa using h
  · have h := moveEntry_spec.2.2.1
      (Entry.mk 1 "repo" (some "a") "a" none false [])
      [Entry.mk 2 "repo" (some "b") "b" none false []] 1 (by rfl)
    simpa using h
  · have h := moveEntry_spec.2.2.2.1
      [Entry.mk 1 "repo" (some "a") "a" none false []]
      (Entry.mk 2 "repo" (some "b") "b" none false []) 2
      (by simp [Entry.id]) (by rfl)
    simpa using h

/-! ## Theorems: claim C6 -/

lemma erase_first_id (es : List Entry) (i : Nat)
    (hnd : (es.map Entry.id).Nodup) :
    (match es.findIdx? (fun e => e.id == i) with
     | some idx => es.eraseIdx idx
     | none => es) = es.filter (fun e => !(e.id == i)) := by
  induction es with
  | nil => rfl
  | cons e rest ih =>
      simp only [List.map_cons, List.nodup_cons] at hnd
      by_cases he : (e.id == i) = true
      · simp only [List.findIdx?_cons, he, if_true, List.eraseIdx_cons_zero,
          List.filter_cons, Bool.not_true, Bool.false_eq_true, if_false]
        refine (List.filter_eq_self.mpr ?_).symm
        intro a ha
        simp only [Bool.not_eq_true', beq_eq_false_iff_ne, ne_eq]
        intro hai
        exact hnd.1 (by
          have hea : e.id = a.id := by rw [eq_of_beq he, hai]
          rw [hea]
          exact List.mem_map_of_mem Entry.id ha)
      · rw [Bool.not_eq_true] at he
        simp only [List.findIdx?_cons, he, Bool.false_eq_true, if_false,
          List.findIdx?_start_succ, List.filter_cons, Bool.not_false,
          if_true]
        cases hr : rest.findIdx? (fun e => e.id == i) with
        | none =>
            have h0 := ih hnd.2
            rw [hr] at h0
            simp only [Option.map_none']
            exact congrArg (fun l => e :: l) h0
        | some k =>
            have h0 := ih hnd.2
            rw [hr] at h0
            simp only [Option.map_some', List.eraseIdx_cons_succ]
            exact congrArg (fun l => e :: l) h0

lemma foldl_remove_eq_filter (ms : List Entry) :
    ∀ (es : List Entry), (es.map Entry.id).Nodup →
      ms.foldl
        (fun acc m =>
          match acc.findIdx? (fun e => e.id == m.id) with
          | some idx => acc.eraseIdx idx
          | none => acc) es =
      es.filter (fun e => !((ms.map Entry.id).contains e.id)) := by
  induction ms with
  | nil =>
      intro es _
      simp
  | cons m ms ih =>
      intro es hnd
      rw [List.foldl_cons]
      rw [erase_first_id es m.id hnd]
      rw [ih (es.filter fun e => !(e.id == m.id))
        (hnd.sublist (List.Sublist.map Entry.id (List.filter_sublist es)))]
      rw [List.filter_filter]
      apply List.filter_congr
      intro e _
      simp only [List.map_cons, List.contains_cons]
      cases h1 : e.id == m.id <;>
        cases h2 : (ms.map Entry.id).contains e.id <;> simp_all

/-- Counterexample to C6 as stated: "selects exactly the root-level entries
whose first path segment equals the prefix" fails for single-segment
paths.  The root entry with path `a` has first path segment `a`, equal to
the prefix, yet `findEntriesWithPrefix` does not select it (the code
requires at least two path parts); only `a/x` and `a/y` are selected. -/
theorem groupByPrefix_counterexample :
    specFirstSegment (some "a") = some "a" ∧
    findEntriesWithPrefix
      [Entry.mk 1 "repo" (some "a") "a" none false [],
       Entry.mk 2 "repo" (some "a/x") "a/x" none false [],
       Entry.mk 3 "repo" (some "a/y") "a/y" none false []] "a" =
      [Entry.mk 2 "repo" (some "a/x") "a/x" none false [],
       Entry.mk 3 "repo" (some "a/y") "a/y" none false []] ∧
    ¬ (Entry.mk 1 "repo" (some "a") "a" none false []) ∈
      findEntriesWithPrefix
        [Entry.mk 1 "repo" (some "a") "a" none false [],
         Entry.mk 2 "repo" (some "a/x") "a/x" none false [],
         Entry.mk 3 "repo" (some "a/y") "a/y" none false []] "a" := by
  refine ⟨rfl, rfl, ?_⟩
  intro hmem
  rw [show findEntriesWithPrefix
      [Entry.mk 1 "repo" (some "a") "a" none false [],
       Entry.mk 2 "repo" (some "a/x") "a/x" none false [],
       Entry.mk 3 "repo" (some "a/y") "a/y" none false []] "a" =
      [Entry.mk 2 "repo" (some "a/x") "a/x" none false [],
       Entry.mk 3 "repo" (some "a/y") "a/y" none false []] from rfl] at hmem
  simp only [List.mem_cons, List.not_mem_nil, or_false,
    Entry.mk.injEq] at hmem
  rcases hmem with ⟨h, -⟩ | ⟨h, -⟩ <;> exact absurd h (by decide)

/-- C6 as amended.  Grouping by prefix selects exactly the root-level
entries whose (backslash-normalised) path has at least two `/`-separated
segments and whose first segment equals the prefix; the confirmation is
offered only for a truthy prefix at depth 0 with at least 2 matches, and
without an offer the tree is unchanged; on confirmation the matched
entries are removed from their root positions and one new synthetic group
carrying the prefix as its path, with the matches as children in their
original order, is inserted at root. -/
theorem groupByPrefix_spec :
    (∀ (es : List Entry) (p : String) (e : Entry),
      e ∈ findEntriesWithPrefix es p ↔
        e ∈ es ∧ getPathPrefix e.path = some p) ∧
    (∀ (path : Option String) (p : String),
      getPathPrefix path = some p ↔
        (truthy path = true ∧
         1 < (splitOnChar '/' ((path.getD "").toList.map
           fun c => if c = '\\' then '/' else c)).length ∧
         specFirstSegment path = some p)) ∧
    (∀ (es : List Entry) (curPath : Option String) (d : Nat) (p : String)
        (ms : List Entry),
      groupOffer es curPath d = some (p, ms) →
        ms = findEntriesWithPrefix es p ∧ 2 ≤ ms.length ∧ p ≠ "" ∧
        d = 0) ∧
    (∀ (gid : Nat) (es : List Entry) (curPath : Option String) (d : Nat),
      groupOffer es curPath d = none →
      groupByPrefix gid es curPath d = es) ∧
    (∀ (gid : Nat) (es : List Entry) (p : String),
      (es.map Entry.id).Nodup →
      groupConfirmYes gid es p (findEntriesWithPrefix es p) =
        es.filter (fun e =>
          !(((findEntriesWithPrefix es p).map Entry.id).contains e.id)) ++
        [createGroupEntry gid p (findEntriesWithPrefix es p)]) ∧
    (∀ (gid : Nat) (p : String) (ms : List Entry),
      (createGroupEntry gid p ms).children = ms ∧
      (createGroupEntry gid p ms).path = some p) := by
  refine ⟨?_, ?_, ?_, ?_, ?_, ?_⟩
  · intro es p e
    unfold findEntriesWithPrefix
    rw [List.mem_filter]
    constructor
    · rintro ⟨hmem, hcond⟩
      refine ⟨hmem, ?_⟩
      by_cases ht : truthy e.path = true
      · rw [if_pos ht] at hcond
        exact eq_of_beq hcond
      · rw [if_neg ht] at hcond
        cases hcond
    · rintro ⟨hmem, hcond⟩
      refine ⟨hmem, ?_⟩
      have ht : truthy e.path = true := by
        by_contra ht
        rw [getPathPrefix, if_neg ht] at hcond
        cases hcond
      rw [if_pos ht, hcond]
      simp
  · intro path p
    simp only [getPathPrefix, specFirstSegment]
    split_ifs with ht hl
    · constructor
      · intro h
        exact ⟨ht, hl, h⟩
      · rintro ⟨-, -, h⟩
        exact h
    · constructor
      · intro h
        cases h
      · rintro ⟨-, hlen, -⟩
        exact absurd hlen hl
    · constructor
      · intro h
        cases h
      · rintro ⟨hth, -, -⟩
        exact absurd hth ht
  · intro es curPath d p ms h
    unfold groupOffer at h
    cases hp : getPathPrefix curPath with
    | none => rw [hp] at h; cases h
    | some q =>
        rw [hp] at h
        simp only [] at h
        by_cases hq : q ≠ "" ∧ d = 0
        · rw [if_pos hq] at h
          by_cases hlen : (findEntriesWithPrefix es q).length > 1
          · rw [if_pos hlen] at h
            cases h
            exact ⟨rfl, by omega, hq.1, hq.2⟩
          · rw [if_neg hlen] at h
            cases h
        · rw [if_neg hq] at h
          cases h
  · intro gid es curPath d h
    unfold groupByPrefix
    rw [h]
  · intro gid es p hnd
    unfold groupConfirmYes
    rw [foldl_remove_eq_filter _ es hnd]
  · intro gid p ms
    unfold createGroupEntry
    cases ms with
    | nil => exact ⟨rfl, rfl⟩
    | cons c rest => exact ⟨rfl, rfl⟩

/-- Witness for C6: grouping `[a/x, a/y, b]` by prefix `a` removes the two
matches from root and appends one group with path `a` containing them in
order; a prefix with fewer than 2 matches yields no offer and no change. -/
theorem groupByPrefix_spec_witness :
    groupConfirmYes 9
      [Entry.mk 1 "repo" (some "a/x") "a/x" none false [],
       Entry.mk 2 "repo" (some "a/y") "a/y" none false [],
       Entry.mk 3 "repo" (some "b/z") "b/z" none false []] "a"
      (findEntriesWithPrefix
        [Entry.mk 1 "repo" (some "a/x") "a/x" none false [],
         Entry.mk 2 "repo" (some "a/y") "a/y" none false [],
         Entry.mk 3 "repo" (some "b/z") "b/z" none false []] "a") =
      [Entry.mk 3 "repo" (some "b/z") "b/z" none false [],
       createGroupEntry 9 "a"
         [Entry.mk 1 "repo" (some "a/x") "a/x" none false [],
          Entry.mk 2 "repo" (some "a/y") "a/y" none false []]] ∧
    groupByPrefix 9
      [Entry.mk 1 "repo" (some "a/x") "a/x" none false [],
       Entry.mk 2 "repo" (some "b/z") "b/z" none false []]
      (some "a/x") 0 =
      [Entry.mk 1 "repo" (some "a/x") "a/x" none false [],
       Entry.mk 2 "repo" (some "b/z") "b/z" none false []] := by
  constructor
  · have h := groupByPrefix_spec.2.2.2.2.1 9
      [Entry.mk 1 "repo" (some "a/x") "a/x" none false [],
       Entry.mk 2 "repo" (some "a/y") "a/y" none false [],
       Entry.mk 3 "repo" (some "b/z") "b/z" none false []] "a"
      (by simp [Entry.id])
    rw [h]
    rfl
  · have h := groupByPrefix_spec.2.2.2.1 9
      [Entry.mk 1 "repo" (some "a/x") "a/x" none false [],
       Entry.mk 2 "repo" (some "b/z") "b/z" none false []]
      (some "a/x") 0 (by rfl)
    exact h

/-! ## Theorems: claim C8

Machinery: `flatAll` lists every entry of the tree in pre-order;
`collectEntryPaths` factors through it, so permutation / sublist facts
about `flatAll` under each editing operation transfer to the collected
path list, and `Nodup` preservation follows. -/

/-- Every entry of the tree (the node itself and all descendants), in
pre-order.  Bookkeeping view, not a source function. -/
def flatAll : List Entry → List Entry
  | [] => []
  | e :: rest => e :: (flatAll e.children ++ flatAll rest)
termination_by es => sizeOf es
decreasing_by
  all_goals cases e
  all_goals simp_wf
  all_goals try simp_all [Entry.children]
  all_goals omega

/-- The own-path contribution of one entry to `collectEntryPaths`. -/
def ownPath (e : Entry) : List String :=
  if truthy e.path then [e.path.getD ""] else []

lemma flatAll_nil : flatAll [] = [] := by rw [flatAll]

lemma flatAll_cons (e : Entry) (rest : List Entry) :
    flatAll (e :: rest) = e :: (flatAll e.children ++ flatAll rest) := by
  cases e
  rw [flatAll]

lemma flatAll_append (l1 l2 : List Entry) :
    flatAll (l1 ++ l2) = flatAll l1 ++ flatAll l2 := by
  induction l1 with
  | nil => rw [flatAll_nil]; rfl
  | cons e rest ih =>
      rw [List.cons_append, flatAll_cons, flatAll_cons, ih]
      simp [List.append_assoc]

lemma collectEntryPaths_eq_flatAll (es : List Entry) :
    collectEntryPaths es = ((flatAll es).map ownPath).flatten := by
  match es with
  | [] => rw [collectEntryPaths, flatAll_nil]; rfl
  | e :: rest =>
      cases e with
      | mk i t p n d x c =>
          rw [collectEntryPaths, flatAll_cons]
          rw [collectEntryPaths_eq_flatAll c, collectEntryPaths_eq_flatAll
            rest]
          simp [ownPath, Entry.path, Entry.children]
termination_by sizeOf es
decreasing_by
  all_goals simp_wf
  all_goals omega

@[simp] lemma Entry.path_withChildren (e : Entry) (c : List Entry) :
    (e.withChildren c).path = e.path := by
  cases e; rfl

@[simp] lemma ownPath_withChildren (e : Entry) (c : List Entry) :
    ownPath (e.withChildren c) = ownPath e := by
  unfold ownPath
  rw [Entry.path_withChildren]

lemma collectEntryPaths_nil : collectEntryPaths [] = [] := by
  rw [collectEntryPaths]

lemma collectEntryPaths_cons (e : Entry) (rest : List Entry) :
    collectEntryPaths (e :: rest) =
      ownPath e ++ (collectEntryPaths e.children ++
        collectEntryPaths rest) := by
  cases e
  rw [collectEntryPaths]
  simp [ownPath, Entry.path, Entry.children, List.append_assoc]

lemma collectEntryPaths_append (l1 l2 : List Entry) :
    collectEntryPaths (l1 ++ l2) =
      collectEntryPaths l1 ++ collectEntryPaths l2 := by
  induction l1 with
  | nil => rw [collectEntryPaths_nil]; rfl
  | cons e rest ih =>
      rw [List.cons_append, collectEntryPaths_cons, collectEntryPaths_cons,
        ih]
      simp [List.append_assoc]

lemma collectEntryPaths_eq_root_flatten (es : List Entry) :
    collectEntryPaths es =
      (es.map fun e =>
        ownPath e ++ collectEntryPaths e.children).flatten := by
  induction es with
  | nil => rw [collectEntryPaths_nil]; rfl
  | cons e rest ih =>
      rw [collectEntryPaths_cons, ih]
      simp [List.append_assoc]

lemma collectEntryPaths_perm_of_root_perm {l1 l2 : List Entry}
    (h : l1.Perm l2) :
    (collectEntryPaths l1).Perm (collectEntryPaths l2) := by
  rw [collectEntryPaths_eq_root_flatten, collectEntryPaths_eq_root_flatten]
  exact (h.map _).flatten

lemma mem_flatAll_of_mem {e : Entry} {es : List Entry} (h : e ∈ es) :
    e ∈ flatAll es := by
  induction es with
  | nil => cases h
  | cons a rest ih =>
      rw [flatAll_cons]
      rcases List.mem_cons.mp h with rfl | h
      · exact List.mem_cons_self _ _
      · exact List.mem_cons_of_mem a
          (List.mem_append_right _ (ih h))

lemma perm_rotate {α : Type} (A B C : List α) :
    (A ++ (B ++ C)).Perm (B ++ (A ++ C)) := by
  have h := (@List.perm_append_comm _ A B).append_right C
  have e1 : (A ++ B) ++ C = A ++ (B ++ C) := by rw [List.append_assoc]
  have e2 : (B ++ A) ++ C = B ++ (A ++ C) := by rw [List.append_assoc]
  rw [e1, e2] at h
  exact h

lemma perm_juggle0 {α : Type} (A B C : List α) :
    (A ++ (B ++ C)).Perm (B ++ (A ++ C)) := perm_rotate A B C

mutual
theorem moveEntry_paths_perm (es : List Entry) (tid : Nat) (dir : Int) :
    (collectEntryPaths (moveEntry es tid dir).1).Perm
      (collectEntryPaths es) := by
  rw [moveEntry.eq_def]
  cases hf : es.findIdx? (fun e => e.id == tid) with
  | some idx =>
      simp only []
      by_cases hb : ((idx : Int) + dir < 0 ∨
          (es.length : Int) ≤ (idx : Int) + dir)
      · rw [if_pos hb]
      · rw [if_neg hb]
        push_neg at hb
        obtain ⟨hlen, -, -⟩ := List.findIdx?_eq_some_iff_getElem.mp hf
        have hj : ((idx : Int) + dir).toNat < es.length := by omega
        exact collectEntryPaths_perm_of_root_perm
          (swapIdx_perm es idx _ hlen hj)
  | none => exact moveEntryChildren_paths_perm es tid dir
termination_by (sizeOf es, 1)

theorem moveEntryChildren_paths_perm (es : List Entry) (tid : Nat)
    (dir : Int) :
    (collectEntryPaths (moveEntryChildren es tid dir).1).Perm
      (collectEntryPaths es) := by
  match es with
  | [] => rw [moveEntryChildren]
  | e :: rest =>
      rw [moveEntryChildren.eq_def]
      simp only []
      by_cases hc : e.children.length > 0
      · rw [if_pos hc]
        cases hm : moveEntry e.children tid dir with
        | mk c' moved =>
            cases moved with
            | true =>
                have ihc := moveEntry_paths_perm e.children tid dir
                rw [hm] at ihc
                rw [collectEntryPaths_cons, collectEntryPaths_cons]
                simp only [ownPath_withChildren,
                  Entry.children_withChildren]
                exact ((ihc.append (List.Perm.refl _)).append_left _)
            | false =>
                have ihr := moveEntryChildren_paths_perm rest tid dir
                rw [collectEntryPaths_cons, collectEntryPaths_cons]
                exact (((List.Perm.refl _).append ihr).append_left _)
      · rw [if_neg hc]
        have ihr := moveEntryChildren_paths_perm rest tid dir
        rw [collectEntryPaths_cons, collectEntryPaths_cons]
        exact (((List.Perm.refl _).append ihr).append_left _)
termination_by (sizeOf es, 0)
decreasing_by
  all_goals cases e
  all_goals simp_wf
  all_goals try simp_all [Entry.children]
  all_goals omega
end

mutual
theorem removeEntry_paths (es : List Entry) (tid : Nat) :
    ((removeEntry es tid).2 = false ∧ (removeEntry es tid).1 = es) ∨
    ((removeEntry es tid).2 = true ∧ ∃ r : Entry, r.id = tid ∧
      r ∈ flatAll es ∧
      (collectEntryPaths es).Perm
        ((ownPath r ++ collectEntryPaths r.children) ++
          collectEntryPaths (removeEntry es tid).1)) := by
  rw [removeEntry.eq_def]
  cases hf : es.findIdx? (fun e => e.id == tid) with
  | some idx =>
      right
      obtain ⟨hlen, hp, -⟩ := List.findIdx?_eq_some_iff_getElem.mp hf
      refine ⟨rfl, es[idx], eq_of_beq hp,
        mem_flatAll_of_mem (es.getElem_mem hlen), ?_⟩
      simp only []
      have hdecomp : es.take idx ++ es[idx] :: es.drop (idx + 1) = es := by
        conv_rhs => rw [← List.take_append_drop idx es]
        rw [List.drop_eq_getElem_cons hlen]
      rw [List.eraseIdx_eq_take_drop_succ]
      conv_lhs => rw [← hdecomp]
      rw [collectEntryPaths_append, collectEntryPaths_cons,
        collectEntryPaths_append]
      have h0 := perm_rotate (collectEntryPaths (es.take idx))
        (ownPath es[idx] ++ collectEntryPaths es[idx].children)
        (collectEntryPaths (es.drop (idx + 1)))
      simpa [List.append_assoc] using h0
  | none => exact removeEntryChildren_paths es tid
termination_by (sizeOf es, 1)

theorem removeEntryChildren_paths (es : List Entry) (tid : Nat) :
    ((removeEntryChildren es tid).2 = false ∧
      (removeEntryChildren es tid).1 = es) ∨
    ((removeEntryChildren es tid).2 = true ∧ ∃ r : Entry, r.id = tid ∧
      r ∈ flatAll es ∧
      (collectEntryPaths es).Perm
        ((ownPath r ++ collectEntryPaths r.children) ++
          collectEntryPaths (removeEntryChildren es tid).1)) := by
  match es with
  | [] =>
      left
      rw [removeEntryChildren]
      exact ⟨rfl, rfl⟩
  | e :: rest =>
      rw [removeEntryChildren.eq_def]
      simp only []
      cases hm : removeEntry e.children tid with
      | mk c' flag =>
          cases flag with
          | true =>
              right
              have ihc := removeEntry_paths e.children tid
              rw [hm] at ihc
              rcases ihc with ⟨hfalse, -⟩ | ⟨-, r, hid, hmem, hperm⟩
              · cases hfalse
              refine ⟨rfl, r, hid, ?_, ?_⟩
              · rw [flatAll_cons]
                exact List.mem_cons_of_mem e
                  (List.mem_append_left _ hmem)
              · rw [collectEntryPaths_cons, collectEntryPaths_cons]
                simp only [ownPath_withChildren,
                  Entry.children_withChildren]
                refine ((hperm.append (List.Perm.refl _)).append_left
                  (ownPath e)).trans ?_
                have h0 := perm_rotate (ownPath e)
                  (ownPath r ++ collectEntryPaths r.children)
                  (collectEntryPaths c' ++ collectEntryPaths rest)
                simpa [List.append_assoc] using h0
          | false =>
              have ihr := removeEntryChildren_paths rest tid
              rcases ihr with ⟨h2, h1⟩ | ⟨h2, r, hid, hmem, hperm⟩
              · left
                refine ⟨h2, ?_⟩
                rw [h1]
              · right
                refine ⟨h2, r, hid, ?_, ?_⟩
                · rw [flatAll_cons]
                  exact List.mem_cons_of_mem e
                    (List.mem_append_right _ hmem)
                · rw [collectEntryPaths_cons, collectEntryPaths_cons]
                  refine (((List.Perm.refl _).append hperm).append_left
                    (ownPath e)).trans ?_
                  have h0 := perm_rotate
                    (ownPath e ++ collectEntryPaths e.children)
                    (ownPath r ++ collectEntryPaths r.children)
                    (collectEntryPaths (removeEntryChildren rest tid).1)
                  simpa [List.append_assoc] using h0
termination_by (sizeOf es, 0)
decreasing_by
  all_goals cases e
  all_goals simp_wf
  all_goals try simp_all [Entry.children]
  all_goals omega
end

lemma collectEntryPaths_singleton (e : Entry) :
    collectEntryPaths [e] =
      ownPath e ++ collectEntryPaths e.children := by
  rw [collectEntryPaths_cons, collectEntryPaths_nil]
  simp

theorem pushChild_paths (es : List Entry) (pid : Nat) (child : Entry) :
    ((pushChild es pid child).2 = false ∧ (pushChild es pid child).1 = es) ∨
    ((pushChild es pid child).2 = true ∧
      (collectEntryPaths (pushChild es pid child).1).Perm
        ((ownPath child ++ collectEntryPaths child.children) ++
          collectEntryPaths es)) := by
  match es with
  | [] =>
      left
      rw [pushChild]
      exact ⟨rfl, rfl⟩
  | e :: rest =>
      rw [pushChild.eq_def]
      simp only []
      by_cases he : (e.id == pid) = true
      · rw [if_pos he]
        right
        refine ⟨rfl, ?_⟩
        rw [collectEntryPaths_cons, collectEntryPaths_cons]
        simp only [ownPath_withChildren, Entry.children_withChildren]
        rw [collectEntryPaths_append, collectEntryPaths_singleton]
        have h0 := perm_rotate
          (ownPath e ++ (collectEntryPaths e.children))
          (ownPath child ++ collectEntryPaths child.children)
          (collectEntryPaths rest)
        simpa [List.append_assoc] using h0
      · rw [if_neg he]
        cases hm : pushChild e.children pid child with
        | mk c' flag =>
            cases flag with
            | true =>
                right
                have ihc := pushChild_paths e.children pid child
                rw [hm] at ihc
                rcases ihc with ⟨hfalse, -⟩ | ⟨-, hperm⟩
                · cases hfalse
                refine ⟨rfl, ?_⟩
                rw [collectEntryPaths_cons, collectEntryPaths_cons]
                simp only [ownPath_withChildren, Entry.children_withChildren]
                refine ((hperm.append (List.Perm.refl _)).append_left
                  (ownPath e)).trans ?_
                have h0 := perm_rotate (ownPath e)
                  (ownPath child ++ collectEntryPaths child.children)
                  (collectEntryPaths e.children ++ collectEntryPaths rest)
                simpa [List.append_assoc] using h0
            | false =>
                have ihr := pushChild_paths rest pid child
                rcases ihr with ⟨h2, h1⟩ | ⟨h2, hperm⟩
                · left
                  refine ⟨h2, ?_⟩
                  rw [h1]
                · right
                  refine ⟨h2, ?_⟩
                  rw [collectEntryPaths_cons, collectEntryPaths_cons]
                  refine (((List.Perm.refl _).append hperm).append_left
                    (ownPath e)).trans ?_
                  have h0 := perm_rotate
                    (ownPath e ++ collectEntryPaths e.children)
                    (ownPath child ++ collectEntryPaths child.children)
                    (collectEntryPaths rest)
                  simpa [List.append_assoc] using h0
termination_by sizeOf es
decreasing_by
  all_goals cases e
  all_goals simp_wf
  all_goals try simp_all [Entry.children]
  all_goals omega

theorem setName_paths (es : List Entry) (tid : Nat) (nm : String) :
    collectEntryPaths (setName es tid nm).1 = collectEntryPaths es := by
  match es with
  | [] => rw [setName]
  | .mk i t p n d x c :: rest =>
      rw [setName.eq_def]
      simp only []
      by_cases hi : (i == tid) = true
      · rw [if_pos hi]
        rw [collectEntryPaths_cons, collectEntryPaths_cons]
        simp [ownPath, Entry.path, Entry.children]
      · rw [if_neg hi]
        cases hs : setName c tid nm with
        | mk c' flag =>
            cases flag with
            | true =>
                have ihc := setName_paths c tid nm
                rw [hs] at ihc
                rw [collectEntryPaths_cons, collectEntryPaths_cons]
                simp only [Entry.children, ownPath, Entry.path]
                rw [ihc]
            | false =>
                have ihr := setName_paths rest tid nm
                rw [collectEntryPaths_cons, collectEntryPaths_cons]
                simp only [Entry.children, ownPath, Entry.path]
                rw [ihr]
termination_by sizeOf es
decreasing_by
  all_goals simp_wf
  all_goals omega

theorem ungroup_paths (es : List Entry) (gid : Nat) :
    ((ungroup es gid).2 = false ∧ (ungroup es gid).1 = es) ∨
    ((ungroup es gid).2 = true ∧ ∃ g : Entry, g.id = gid ∧
      (collectEntryPaths es).Perm
        (ownPath g ++ collectEntryPaths (ungroup es gid).1)) := by
  match es with
  | [] =>
      left
      rw [ungroup]
      exact ⟨rfl, rfl⟩
  | e :: rest =>
      rw [ungroup.eq_def]
      simp only []
      by_cases he : (e.id == gid) = true
      · rw [if_pos he]
        right
        refine ⟨rfl, e, eq_of_beq he, ?_⟩
        rw [collectEntryPaths_cons, collectEntryPaths_append]
      · rw [if_neg he]
        cases hm : ungroup e.children gid with
        | mk c' flag =>
            cases flag with
            | true =>
                right
                have ihc := ungroup_paths e.children gid
                rw [hm] at ihc
                rcases ihc with ⟨hfalse, -⟩ | ⟨-, g, hgid, hperm⟩
                · cases hfalse
                refine ⟨rfl, g, hgid, ?_⟩
                rw [collectEntryPaths_cons, collectEntryPaths_cons]
                simp only [ownPath_withChildren, Entry.children_withChildren]
                refine ((hperm.append (List.Perm.refl _)).append_left
                  (ownPath e)).trans ?_
                have h0 := perm_rotate (ownPath e) (ownPath g)
                  (collectEntryPaths c' ++ collectEntryPaths rest)
                simpa [List.append_assoc] using h0
            | false =>
                have ihr := ungroup_paths rest gid
                rcases ihr with ⟨h2, h1⟩ | ⟨h2, g, hgid, hperm⟩
                · left
                  refine ⟨h2, ?_⟩
                  rw [h1]
                · right
                  refine ⟨h2, g, hgid, ?_⟩
                  rw [collectEntryPaths_cons, collectEntryPaths_cons]
                  refine (((List.Perm.refl _).append hperm).append_left
                    (ownPath e)).trans ?_
                  have h0 := perm_rotate
                    (ownPath e ++ collectEntryPaths e.children) (ownPath g)
                    (collectEntryPaths (ungroup rest gid).1)
                  simpa [List.append_assoc] using h0
termination_by sizeOf es
decreasing_by
  all_goals cases e
  all_goals simp_wf
  all_goals try simp_all [Entry.children]
  all_goals omega

/-- The `'a'`-then-`return` add action (launcher.js lines 2557–2567 and
2026–2037): a fresh repository entry, named by its path, pushed at the end
of the root list. -/
def addRepoEntry (es : List Entry) (nid : Nat) (rpath ideName : String) :
    List Entry :=
  es ++ [Entry.mk nid "repo" (some rpath) rpath (some ideName) false []]

lemma createGroupEntry_path (gid : Nat) (p : String) (ms : List Entry) :
    (createGroupEntry gid p ms).path = some p := by
  unfold createGroupEntry
  cases ms <;> rfl

lemma createGroupEntry_children (gid : Nat) (p : String) (ms : List Entry) :
    (createGroupEntry gid p ms).children = ms := by
  unfold createGroupEntry
  cases ms <;> rfl

theorem nestEntry_paths_perm (es : List Entry) (ent : Entry)
    (target : Option Nat)
    (hnd : ((flatAll es).map Entry.id).Nodup)
    (hmem : ent ∈ flatAll es)
    (hfound : (removeEntry es ent.id).2 = true)
    (htgt : ∀ pid, target = some pid →
      (pushChild (removeEntry es ent.id).1 pid ent).2 = true) :
    (collectEntryPaths (nestEntry es ent target)).Perm
      (collectEntryPaths es) := by
  rcases removeEntry_paths es ent.id with ⟨hf, -⟩ | ⟨-, r, hid, hmemr, hperm⟩
  · rw [hfound] at hf
    cases hf
  · have hre : r = ent :=
      List.inj_on_of_nodup_map hnd hmemr hmem hid
    rw [hre] at hperm
    unfold nestEntry
    cases target with
    | none =>
        simp only []
        rw [collectEntryPaths_append, collectEntryPaths_singleton]
        exact List.perm_append_comm.trans hperm.symm
    | some pid =>
        simp only []
        have hf2 := htgt pid rfl
        rcases pushChild_paths (removeEntry es ent.id).1 pid ent with
          ⟨hfl, -⟩ | ⟨-, hp2⟩
        · rw [hf2] at hfl
          cases hfl
        · exact hp2.trans hperm.symm

theorem groupConfirm_paths_perm (gid : Nat) (es : List Entry) (p : String)
    (hnd : (es.map Entry.id).Nodup) (hp : p ≠ "") :
    (collectEntryPaths (groupConfirmYes gid es p
      (findEntriesWithPrefix es p))).Perm (p :: collectEntryPaths es) := by
  unfold groupConfirmYes
  rw [foldl_remove_eq_filter _ es hnd]
  rw [collectEntryPaths_append, collectEntryPaths_singleton]
  rw [show ownPath (createGroupEntry gid p (findEntriesWithPrefix es p)) =
      [p] from by
    unfold ownPath
    rw [createGroupEntry_path]
    simp [truthy, hp]]
  rw [createGroupEntry_children]
  have hfc : es.filter (fun e =>
      !(((findEntriesWithPrefix es p).map Entry.id).contains e.id)) =
      es.filter (fun e =>
        !(if truthy e.path then getPathPrefix e.path == some p
          else false)) := by
    apply List.filter_congr
    intro e he
    congr 1
    by_cases hc : (if truthy e.path then getPathPrefix e.path == some p
        else false) = true
    · rw [hc]
      have hems : e ∈ findEntriesWithPrefix es p :=
        List.mem_filter.mpr ⟨he, hc⟩
      exact List.elem_eq_true_of_mem
        (List.mem_map_of_mem Entry.id hems)
    · rw [Bool.not_eq_true] at hc
      rw [hc]
      by_contra hcon
      rw [Bool.not_eq_false] at hcon
      obtain ⟨i, hi, hie⟩ := List.mem_map.mp
        (List.mem_of_elem_eq_true hcon)
      have hies : i ∈ es := List.mem_of_mem_filter hi
      have : i = e := List.inj_on_of_nodup_map hnd hies he hie
      rw [this] at hi
      have := (List.mem_filter.mp hi).2
      rw [hc] at this
      cases this
  rw [hfc]
  have hsplit := List.filter_append_perm
    (fun e => if truthy e.path then getPathPrefix e.path == some p
      else false) es
  have hpaths := collectEntryPaths_perm_of_root_perm hsplit
  rw [collectEntryPaths_append] at hpaths
  have step1 := perm_rotate
    (collectEntryPaths (es.filter fun e =>
      !(if truthy e.path then getPathPrefix e.path == some p else false)))
    [p]
    (collectEntryPaths (findEntriesWithPrefix es p))
  refine step1.trans ?_
  show (p :: (collectEntryPaths (es.filter fun e =>
      !(if truthy e.path then getPathPrefix e.path == some p else false)) ++
      collectEntryPaths (findEntriesWithPrefix es p))).Perm
    (p :: collectEntryPaths es)
  exact List.Perm.cons p (List.perm_append_comm.trans hpaths)

/-- A tree whose root already holds a group with path `"a"` (containing one
repository) next to two root repositories `a/x`, `a/y`; its truthy paths
are pairwise distinct. -/
def c8tree : List Entry :=
  [Entry.mk 1 "group" (some "a") "a" none true
     [Entry.mk 2 "repo" (some "a/z") "a/z" none false []],
   Entry.mk 3 "repo" (some "a/x") "a/x" none false [],
   Entry.mk 4 "repo" (some "a/y") "a/y" none false []]

/-- A duplicate-free tree on which each of the seven editing operations is
exercised concretely. -/
def w8tree : List Entry :=
  [Entry.mk 1 "repo" (some "b/x") "b/x" none false [],
   Entry.mk 2 "repo" (some "b/y") "b/y" none false [],
   Entry.mk 3 "group" (some "g") "g" none true
     [Entry.mk 4 "repo" (some "g/z") "g/z" none false []]]

/-- C8 fails as stated: grouping the root entries `a/x`, `a/y` under the
offered prefix `a` while a group entry with path `a` already exists
appends a second entry with path `a`, so the collected truthy paths of the
resulting tree are no longer pairwise distinct. -/
theorem pathUniqueness_counterexample :
    (collectEntryPaths c8tree).Nodup ∧
      ¬ (collectEntryPaths (groupByPrefix 9 c8tree (some "a/x") 0)).Nodup := by
  have hres : groupByPrefix 9 c8tree (some "a/x") 0 =
      [Entry.mk 1 "group" (some "a") "a" none true
         [Entry.mk 2 "repo" (some "a/z") "a/z" none false []],
       Entry.mk 9 "group" (some "a") "a" none true
         [Entry.mk 3 "repo" (some "a/x") "a/x" none false [],
          Entry.mk 4 "repo" (some "a/y") "a/y" none false []]] := rfl
  constructor
  · simp only [c8tree, collectEntryPaths_cons, collectEntryPaths_nil,
      Entry.children, ownPath, Entry.path, truthy, Option.getD_some]
    decide
  · rw [hres]
    simp only [collectEntryPaths_cons, collectEntryPaths_nil,
      Entry.children, ownPath, Entry.path, truthy, Option.getD_some]
    decide

/-- C8: path uniqueness under the editing operations, settled operation by
operation.  Rename, move, remove and ungroup preserve duplicate-freedom of
the collected truthy paths unconditionally.  Add preserves it when the
added repository's path is not already in the tree (which the `'a'`
handler guarantees by offering only `getOtherManagedRepos`).  Nest
preserves it under the object-identity side conditions (ids pairwise
distinct, the nested entry lives in the tree, the detach and — for a group
target — the re-attach both succeed).  Grouping preserves it only under
the additional proviso that the offered prefix is not already the path of
some entry; without that proviso the invariant fails (see the
counterexample). -/
theorem pathUniqueness_spec :
    (∀ es tid buf, (collectEntryPaths es).Nodup →
      (collectEntryPaths (renameEntry es tid buf)).Nodup) ∧
    (∀ es tid dir, (collectEntryPaths es).Nodup →
      (collectEntryPaths (moveEntry es tid dir).1).Nodup) ∧
    (∀ es tid, (collectEntryPaths es).Nodup →
      (collectEntryPaths (removeEntry es tid).1).Nodup) ∧
    (∀ es gid, (collectEntryPaths es).Nodup →
      (collectEntryPaths (ungroup es gid).1).Nodup) ∧
    (∀ es nid rpath ideName, (collectEntryPaths es).Nodup →
      rpath ∉ collectEntryPaths es →
      (collectEntryPaths (addRepoEntry es nid rpath ideName)).Nodup) ∧
    (∀ es ent target, (collectEntryPaths es).Nodup →
      ((flatAll es).map Entry.id).Nodup → ent ∈ flatAll es →
      (removeEntry es ent.id).2 = true →
      (∀ pid, target = some pid →
        (pushChild (removeEntry es ent.id).1 pid ent).2 = true) →
      (collectEntryPaths (nestEntry es ent target)).Nodup) ∧
    (∀ gid es curPath curDepth, (collectEntryPaths es).Nodup →
      (es.map Entry.id).Nodup →
      (∀ p ms, groupOffer es curPath curDepth = some (p, ms) →
        p ∉ collectEntryPaths es) →
      (collectEntryPaths (groupByPrefix gid es curPath curDepth)).Nodup) := by
  refine ⟨?_, ?_, ?_, ?_, ?_, ?_, ?_⟩
  · intro es tid buf h
    unfold renameEntry
    by_cases hb : jsTrim buf ≠ ""
    · rw [if_pos hb, setName_paths]
      exact h
    · rw [if_neg hb]
      exact h
  · intro es tid dir h
    exact (moveEntry_paths_perm es tid dir).nodup_iff.mpr h
  · intro es tid h
    rcases removeEntry_paths es tid with ⟨-, heq⟩ | ⟨-, r, -, -, hperm⟩
    · rw [heq]
      exact h
    · exact (hperm.nodup_iff.mp h).sublist (List.sublist_append_right _ _)
  · intro es gid h
    rcases ungroup_paths es gid with ⟨-, heq⟩ | ⟨-, g, -, hperm⟩
    · rw [heq]
      exact h
    · exact (hperm.nodup_iff.mp h).sublist (List.sublist_append_right _ _)
  · intro es nid rpath ideName h hnot
    unfold addRepoEntry
    rw [collectEntryPaths_append, collectEntryPaths_singleton]
    simp only [ownPath, Entry.path, Entry.children, collectEntryPaths_nil,
      List.append_nil, Option.getD_some]
    by_cases hr : truthy (some rpath) = true
    · rw [if_pos hr]
      refine List.Nodup.append h (List.nodup_singleton rpath) ?_
      intro a ha hb
      rw [List.mem_singleton] at hb
      subst hb
      exact hnot ha
    · rw [if_neg hr]
      simpa using h
  · intro es ent target h hnd hmem hfound htgt
    exact (nestEntry_paths_perm es ent target hnd hmem hfound
      htgt).nodup_iff.mpr h
  · intro gid es curPath curDepth h hnd hfree
    unfold groupByPrefix
    cases hoff : groupOffer es curPath curDepth with
    | none => exact h
    | some pr =>
        obtain ⟨p, ms⟩ := pr
        have hfacts : p ≠ "" ∧ ms = findEntriesWithPrefix es p := by
          have hoff' := hoff
          unfold groupOffer at hoff'
          cases hgp : getPathPrefix curPath with
          | none =>
              simp only [hgp] at hoff'
              exact Option.noConfusion hoff'
          | some q =>
              simp only [hgp] at hoff'
              split_ifs at hoff' with hc hl
              · injection hoff' with h1
                injection h1 with h1a h1b
                subst h1a
                exact ⟨hc.1, h1b.symm⟩
        obtain ⟨hp, hms⟩ := hfacts
        have hpnot : p ∉ collectEntryPaths es := hfree p ms hoff
        have hperm := groupConfirm_paths_perm gid es p hnd hp
        show (collectEntryPaths (groupConfirmYes gid es p ms)).Nodup
        rw [hms]
        exact hperm.nodup_iff.mpr (List.nodup_cons.mpr ⟨hpnot, h⟩)

/-- Each conjunct of the uniqueness theorem instantiated on the concrete
duplicate-free tree, every hypothesis discharged by computation. -/
theorem pathUniqueness_spec_witness :
    (collectEntryPaths (renameEntry w8tree 4 "  zz  ")).Nodup ∧
    (collectEntryPaths (moveEntry w8tree 1 1).1).Nodup ∧
    (collectEntryPaths (removeEntry w8tree 2).1).Nodup ∧
    (collectEntryPaths (ungroup w8tree 3).1).Nodup ∧
    (collectEntryPaths (addRepoEntry w8tree 9 "c" "cursor")).Nodup ∧
    (collectEntryPaths (nestEntry w8tree
      (Entry.mk 1 "repo" (some "b/x") "b/x" none false [])
      (some 3))).Nodup ∧
    (collectEntryPaths (groupByPrefix 9 w8tree (some "b/x") 0)).Nodup := by
  have hN : (collectEntryPaths w8tree).Nodup := by
    simp only [w8tree, collectEntryPaths_cons, collectEntryPaths_nil,
      Entry.children, ownPath, Entry.path, truthy, Option.getD_some]
    decide
  refine ⟨pathUniqueness_spec.1 w8tree 4 "  zz  " hN,
    pathUniqueness_spec.2.1 w8tree 1 1 hN,
    pathUniqueness_spec.2.2.1 w8tree 2 hN,
    pathUniqueness_spec.2.2.2.1 w8tree 3 hN,
    pathUniqueness_spec.2.2.2.2.1 w8tree 9 "c" "cursor" hN ?_,
    pathUniqueness_spec.2.2.2.2.2.1 w8tree
      (Entry.mk 1 "repo" (some "b/x") "b/x" none false []) (some 3)
      hN ?_ ?_ ?_ ?_,
    pathUniqueness_spec.2.2.2.2.2.2 9 w8tree (some "b/x") 0 hN ?_ ?_⟩
  · simp only [w8tree, collectEntryPaths_cons, collectEntryPaths_nil,
      Entry.children, ownPath, Entry.path, truthy, Option.getD_some]
    decide
  · simp only [w8tree, flatAll_cons, flatAll_nil, Entry.children,
      List.append_nil, List.nil_append]
    decide
  · simp only [w8tree, flatAll_cons, flatAll_nil, Entry.children,
      List.append_nil, List.nil_append]
    exact List.mem_cons_self _ _
  · rw [removeEntry.eq_def]
    rfl
  · intro pid hpid
    injection hpid with hpid
    subst hpid
    have hrem : (removeEntry w8tree (Entry.mk 1 "repo" (some "b/x") "b/x"
        none false []).id).1 =
        [Entry.mk 2 "repo" (some "b/y") "b/y" none false [],
         Entry.mk 3 "group" (some "g") "g" none true
           [Entry.mk 4 "repo" (some "g/z") "g/z" none false []]] := by
      rw [removeEntry.eq_def]
      rfl
    rw [hrem]
    simp [pushChild, Entry.id, Entry.children, Entry.withChildren]
  · decide
  · intro p ms hoff
    have hg : groupOffer w8tree (some "b/x") 0 =
        some ("b", findEntriesWithPrefix w8tree "b") := rfl
    rw [hg] at hoff
    injection hoff with h1
    injection h1 with h1a h1b
    subst h1a
    simp only [w8tree, collectEntryPaths_cons, collectEntryPaths_nil,
      Entry.children, ownPath, Entry.path, truthy, Option.getD_some]
    decide

end Launcher
